import Mathlib

/-!
stoneknife: a two-pass interpreter for a one-character-token stack language

Shallow embedding of `main.go`.  The Go program keeps its machine state in
package-level variables; here they are the fields of `State`, and every
function of the source becomes a function on `State`.  A Go run-time panic
(index out of range, call of a nil function) is the result `none`.

Machine integers:
* `int32` values are `Int`s kept in `[-2^31, 2^31)` by `wrap32`, which is applied
  wherever the source performs `int32` arithmetic or converts to `int32`;
* `uint8` values are `Fin 256` (`Byte`), whose subtraction wraps modulo 256 as
  Go's does;
* `uint32` values are `Nat`s reduced modulo `2^32`;
* Go's `int` (64 bit) is an unbounded `Int`: the cursor only moves in steps of
  one over a byte slice, so it cannot overflow.
-/

namespace Stoneknife

/-- A `uint8`. -/
abbrev Byte := Fin 256

/-- Conversion to `int32` / the result of `int32` arithmetic: reduce modulo `2^32`
into the signed range. -/
def wrap32 (z : Int) : Int := (z + 2147483648) % 4294967296 - 2147483648

/-- Conversion `uint8(i)` of a signed integer: the low eight bits. -/
def uint8 (i : Int) : Byte := ⟨(i % 256).toNat, by omega⟩

/-- Conversion `uint8(i)` of an unsigned integer. -/
def uint8n (i : Nat) : Byte := ⟨i % 256, by omega⟩

/-- The two kinds of closure stored in `runtimeDispatch`: the one returned by
`pushDataspaceLabel(n)` and the one returned by `callFunction(n)`. -/
inductive Action where
  | pushDataspaceLabel (n : Int)
  | callFunction (n : Int)
  deriving DecidableEq, Repr

/-- The package-level variables of `main.go`, with the two byte channels
(standard input still to be read, standard output written so far).  Maps are
association lists, newest binding first; a lookup takes the first match, which
is what a Go map holds after the same sequence of assignments. -/
structure State where
  startAddress : Int
  pc : Int
  memory : List Byte
  stack : List Int
  rstack : List Int
  jumps : List (Int × Int)
  runtimeDispatch : List (Byte × Action)
  stdin : List Byte
  stdout : List Byte
  deriving DecidableEq, Repr

/-- The initial values of the package-level variables. -/
def State.init (input : List Byte) : State :=
  { startAddress := 0, pc := 0, memory := [], stack := [], rstack := [],
    jumps := [], runtimeDispatch := [], stdin := input, stdout := [] }

/-- Lookup `jumps[k]`: a missing key reads as Go's zero value. -/
def jumpsGet (j : List (Int × Int)) (k : Int) : Int :=
  match j with
  | [] => 0
  | (k', v) :: rest => if k = k' then v else jumpsGet rest k

/-- Whether `k` has been assigned in the map. -/
def jumpsHas (j : List (Int × Int)) (k : Int) : Bool :=
  match j with
  | [] => false
  | (k', _) :: rest => if k = k' then true else jumpsHas rest k

/-- Lookup `runtimeDispatch[token]`. -/
def dispatchGet (d : List (Byte × Action)) (k : Byte) : Option Action :=
  match d with
  | [] => none
  | (k', a) :: rest => if k = k' then some a else dispatchGet rest k

/-- Slice indexing `memory[i]` for reading; out of range panics. -/
def memGet (m : List Byte) (i : Int) : Option Byte :=
  if 0 ≤ i then m[i.toNat]? else none

/-- Slice indexing `memory[i] = b`; out of range panics. -/
def memSet (m : List Byte) (i : Int) (b : Byte) : Option (List Byte) :=
  if 0 ≤ i ∧ i < m.length then some (m.set i.toNat b) else none

/-- The idiom `x, stack = stack[0], stack[1:]`. -/
def pop (st : List Int) : Option (Int × List Int) :=
  match st with
  | [] => none
  | x :: rest => some (x, rest)

/-- The idiom `x, y, stack = stack[0], stack[1], stack[2:]`. -/
def pop2 (st : List Int) : Option (Int × Int × List Int) :=
  match st with
  | x :: y :: rest => some (x, y, rest)
  | _ => none

/-! ## Memory primitives -/

/-- `extend_memory(addr int32)`: `diff` is computed in `int32`. -/
def extend_memory (s : State) (addr : Int) : State :=
  let diff := wrap32 (wrap32 (addr + 1) - wrap32 s.memory.length)
  if diff > 0 then
    { s with memory := s.memory ++ List.replicate diff.toNat (0 : Byte) }
  else s

/-- `storeByte()`, the run-phase `s`. -/
def storeByte (s : State) : Option State := do
  let (addr, stack1) ← pop s.stack
  let s1 := extend_memory { s with stack := stack1 } addr
  let (m, stack2) ← pop s1.stack
  let mem ← memSet s1.memory addr (uint8 m)
  pure { s1 with stack := stack2, memory := mem }

/-- `store()`, the run-phase `!`. -/
def store (s : State) : Option State := do
  let (addr, stack1) ← pop s.stack
  let s1 := extend_memory { s with stack := stack1 } (wrap32 (addr + 3))
  let (i, stack2) ← pop s1.stack
  let m0 ← memSet s1.memory addr (uint8 i)
  let m1 ← memSet m0 (wrap32 (addr + 1)) (uint8 (i >>> (8 : Nat)))
  let m2 ← memSet m1 (wrap32 (addr + 2)) (uint8 (i >>> (16 : Nat)))
  let m3 ← memSet m2 (wrap32 (addr + 3)) (uint8 (i >>> (24 : Nat)))
  pure { s1 with stack := stack2, memory := m3 }

/-- The word `int32(b0) | int32(b1)<<8 | int32(b2)<<16 | int32(b3)<<24`: the
four shifted bytes are below `2^32`, so their bitwise or is the 32-bit pattern,
read back as a signed integer. -/
def word32 (b0 b1 b2 b3 : Byte) : Int :=
  wrap32 ((b0.val ||| (b1.val <<< 8) ||| (b2.val <<< 16) ||| (b3.val <<< 24) : Nat) : Int)

/-- `fetch()`, the run-phase `@`. -/
def fetch (s : State) : Option State := do
  let (addr, stack1) ← pop s.stack
  let b0 ← memGet s.memory addr
  let b1 ← memGet s.memory (wrap32 (addr + 1))
  let b2 ← memGet s.memory (wrap32 (addr + 2))
  let b3 ← memGet s.memory (wrap32 (addr + 3))
  pure { s with stack := word32 b0 b1 b2 b3 :: stack1 }

/-! ## Arithmetic primitives -/

/-- `lessThan()`, the run-phase `<`. -/
def lessThan (s : State) : Option State := do
  let (b, a, rest) ← pop2 s.stack
  if a < b then pure { s with stack := 1 :: rest }
  else pure { s with stack := 0 :: rest }

/-- `subtract()`, the run-phase `-`. -/
def subtract (s : State) : Option State := do
  let (x, y, rest) ← pop2 s.stack
  pure { s with stack := wrap32 (y - x) :: rest }

/-! ## Scanner -/

/-- `isWhitespace(c)`: space, newline or tab. -/
def isWhitespace (c : Byte) : Bool := c = 32 || c = 10 || c = 9

/-- `isDigit(c)`: `c - '0' < 10` in `uint8` arithmetic (the subtraction wraps). -/
def isDigit (c : Byte) : Bool := decide (c - 48 < 10)

/-- `currentByte()`: `program[pc]`. -/
def currentByte (program : List Byte) (s : State) : Option Byte :=
  if 0 ≤ s.pc then program[s.pc.toNat]? else none

/-- `eatByte()`: read `program[pc]`, then `pc++`. -/
def eatByte (program : List Byte) (s : State) : Option (Byte × State) := do
  let n ← currentByte program s
  pure (n, { s with pc := s.pc + 1 })

/-- The loop of `advancePastWhitespace()`; every iteration moves the cursor one
byte closer to the end of the source, so `len(program) - pc` iterations are
enough and the fuel is zero only when the loop condition is false. -/
def advancePastWhitespaceLoop (program : List Byte) : Nat → State → Option State
  | 0, s => some s
  | fuel + 1, s =>
    if s.pc < program.length then do
      let c ← currentByte program s
      if isWhitespace c then do
        let (_, s1) ← eatByte program s
        advancePastWhitespaceLoop program fuel s1
      else pure s
    else pure s

/-- `advancePastWhitespace()`. -/
def advancePastWhitespace (program : List Byte) (s : State) : Option State :=
  advancePastWhitespaceLoop program (program.length - s.pc).toNat s

/-- The loop of `advanceToWhitespace()`, with the same fuel. -/
def advanceToWhitespaceLoop (program : List Byte) : Nat → State → Option State
  | 0, s => some s
  | fuel + 1, s =>
    if s.pc < program.length then do
      let c ← currentByte program s
      if !isWhitespace c then do
        let (_, s1) ← eatByte program s
        advanceToWhitespaceLoop program fuel s1
      else pure s
    else pure s

/-- `advanceToWhitespace()`. -/
def advanceToWhitespace (program : List Byte) (s : State) : Option State :=
  advanceToWhitespaceLoop program (program.length - s.pc).toNat s

/-- `getToken()`. -/
def getToken (program : List Byte) (s : State) : Option (Byte × State) := do
  let s1 ← advancePastWhitespace program s
  let rv ← currentByte program s1
  if !isDigit rv && rv != 39 then do
    let s2 ← advanceToWhitespace program s1
    pure (rv, s2)
  else pure (rv, s1)

/-! ## Numbers -/

/-- The value of a string of decimal digits. -/
def decimalValue (ds : List Byte) : Nat :=
  ds.foldl (fun acc d => acc * 10 + (d.val - 48)) 0

/-- The standard library's `strconv.Atoi` on a string of decimal digits, with the
error discarded as `readNumber` does: the empty string and a value that does not
fit `int` (64 bit) are errors, for which `Atoi` returns `0` and the largest `int`. -/
def atoi (ds : List Byte) : Int :=
  if decimalValue ds < 9223372036854775808 then (decimalValue ds : Int)
  else 9223372036854775807

/-- The loop of `readNumber()`: `for c := eatByte(); isDigit(c); c = eatByte()`.
Every iteration eats one byte and `eatByte` panics at the end of the source, so
`len(program) - pc + 1` iterations are never exceeded. -/
def readDigits (program : List Byte) : Nat → State → List Byte → Option (List Byte × State)
  | 0, _, _ => none
  | fuel + 1, s, buf => do
    let (c, s1) ← eatByte program s
    if isDigit c then readDigits program fuel s1 (buf ++ [c])
    else pure (buf, s1)

/-- `readNumber()`: the result is a `uint32`. -/
def readNumber (program : List Byte) (s : State) : Option (Nat × State) := do
  let (buf, s1) ← readDigits program ((program.length - s.pc).toNat + 1) s []
  pure ((atoi buf).toNat % 4294967296, s1)

/-! ## Compile phase -/

/-- `define(name, action)`. -/
def define (name : Byte) (action : Action) (s : State) : State :=
  { s with runtimeDispatch := (name, action) :: s.runtimeDispatch }

/-- The loop of `eatComment()`: `for eatByte() != ')' {}`. -/
def eatCommentLoop (program : List Byte) : Nat → State → Option State
  | 0, _ => none
  | fuel + 1, s => do
    let (c, s1) ← eatByte program s
    if c != 41 then eatCommentLoop program fuel s1 else pure s1

/-- `eatComment()`. -/
def eatComment (program : List Byte) (s : State) : Option State := do
  let commentStart := s.pc
  let s1 ← eatCommentLoop program ((program.length - s.pc).toNat + 1) s
  pure { s1 with jumps := (commentStart, s1.pc) :: s1.jumps }

/-- `dataspaceLabel()`. -/
def dataspaceLabel (program : List Byte) (s : State) : Option State := do
  let (name, s1) ← getToken program s
  pure (define name (Action.pushDataspaceLabel (wrap32 s1.memory.length)) s1)

/-- `defineFunction()`: `define(getToken(), callFunction(pc))`, the cursor being
read after the call of `getToken`. -/
def defineFunction (program : List Byte) (s : State) : Option State := do
  let (name, s1) ← getToken program s
  pure (define name (Action.callFunction s1.pc) s1)

/-- `literalByteCompile()`. -/
def literalByteCompile (program : List Byte) (s : State) : Option State := do
  let s1 ← advancePastWhitespace program s
  let (n, s2) ← readNumber program s1
  pure { s2 with memory := s2.memory ++ [uint8n n] }

/-- `literalWord()`. -/
def literalWord (program : List Byte) (s : State) : Option State := do
  let s1 ← advancePastWhitespace program s
  let (i, s2) ← readNumber program s1
  pure { s2 with memory := s2.memory ++
    [uint8n i, uint8n (i >>> 8), uint8n (i >>> 16), uint8n (i >>> 24)] }

/-- `allocateSpace()`. -/
def allocateSpace (program : List Byte) (s : State) : Option State := do
  let s1 ← advancePastWhitespace program s
  let (n, s2) ← readNumber program s1
  pure { s2 with memory := s2.memory ++ List.replicate n (0 : Byte) }

/-- `setStartAddress()`. -/
def setStartAddress (s : State) : State := { s with startAddress := s.pc }

/-- `startConditional()`: the marker is `int32(pc)`. -/
def startConditional (s : State) : State := { s with stack := wrap32 s.pc :: s.stack }

/-- `endConditional()`. -/
def endConditional (s : State) : Option State := do
  let (n, rest) ← pop s.stack
  pure { s with stack := rest, jumps := (n, s.pc) :: s.jumps }

/-- `endLoop()`. -/
def endLoop (s : State) : Option State := do
  let (n, rest) ← pop s.stack
  pure { s with stack := rest, jumps := (s.pc, n) :: s.jumps }

/-- `skipLiteralByte()`. -/
def skipLiteralByte (program : List Byte) (s : State) : Option State := do
  let (_, s1) ← eatByte program s
  let (_, s2) ← eatByte program s1
  pure s2

/-- The `switch token` of `compile()`. -/
def compileToken (program : List Byte) (token : Byte) (s : State) : Option State :=
  if token = 40 then eatComment program s                 -- '('
  else if token = 118 then dataspaceLabel program s       -- 'v'
  else if token = 58 then defineFunction program s        -- ':'
  else if token = 98 then literalByteCompile program s    -- 'b'
  else if token = 35 then literalWord program s           -- '#'
  else if token = 42 then allocateSpace program s         -- '*'
  else if token = 94 then some (setStartAddress s)        -- '^'
  else if token = 91 ∨ token = 123 then some (startConditional s)  -- '[', '{'
  else if token = 93 then endConditional s                -- ']'
  else if token = 125 then endLoop s                      -- '}'
  else if token = 32 ∨ token = 10 then (eatByte program s).map Prod.snd  -- ' ', '\n'
  else if token = 39 then skipLiteralByte program s       -- '\''
  else if isDigit token then (readNumber program s).map Prod.snd  -- '0' .. '9'
  else some s

/-- One iteration of the loop of `compile()`. -/
def compileStep (program : List Byte) (s : State) : Option State := do
  let (token, s1) ← getToken program s
  let s2 ← compileToken program token s1
  advancePastWhitespace program s2

/-- The loop `for pc < len(program)` of `compile()`.  Every iteration moves the
cursor forward, so `len(program)` iterations are enough. -/
def compileLoop (program : List Byte) : Nat → State → Option State
  | 0, s => if s.pc < program.length then none else some s
  | fuel + 1, s =>
    if s.pc < program.length then (compileStep program s).bind (compileLoop program fuel)
    else some s

/-- `compile()`, from the initial values of the package-level variables. -/
def compile (program : List Byte) (input : List Byte) : Option State :=
  compileLoop program program.length (State.init input)

/-- The state after exactly `n` iterations of the loop of `compile()`, each
entered with `pc < len(program)`. -/
def compileIter (program : List Byte) : Nat → State → Option State
  | 0, s => some s
  | n + 1, s =>
    if s.pc < program.length then (compileStep program s).bind (compileIter program n)
    else none

/-! ## Run phase -/

/-- `jump()`. -/
def jump (s : State) : State := { s with pc := jumpsGet s.jumps s.pc }

/-- `conditional()`, the run-phase `[`. -/
def conditional (s : State) : Option State := do
  let (b, rest) ← pop s.stack
  let s1 := { s with stack := rest }
  if b ≠ 0 then pure s1 else pure (jump s1)

/-- `loop()`, the run-phase `}`. -/
def loop (s : State) : Option State := do
  let (b, rest) ← pop s.stack
  let s1 := { s with stack := rest }
  if b = 0 then pure s1 else pure (jump s1)

/-- `returnFromFunction()`, the run-phase `;`. -/
def returnFromFunction (s : State) : Option State := do
  let (a, rest) ← pop s.rstack
  pure { s with pc := a, rstack := rest }

/-- `literalByteRun()`. -/
def literalByteRun (program : List Byte) (s : State) : Option State := do
  let (_, s1) ← eatByte program s
  let (c, s2) ← eatByte program s1
  pure { s2 with stack := (c.val : Int) :: s2.stack }

/-- `pushLiteral()`: `int32(readNumber())`. -/
def pushLiteral (program : List Byte) (s : State) : Option State := do
  let (n, s1) ← readNumber program s
  pure { s1 with stack := wrap32 n :: s1.stack }

/-- `readByte()`, the run-phase `G`: a failed read (end of input) pushes `-1`. -/
def readByte (s : State) : State :=
  match s.stdin with
  | [] => { s with stack := -1 :: s.stack }
  | b :: rest => { s with stack := (b.val : Int) :: s.stack, stdin := rest }

/-- The loop `for i := address; i < address+count; i++` of `writeOut()`. -/
def writeOutLoop (memory : List Byte) : Nat → Int → Int → List Byte → Option (List Byte)
  | 0, _, _, buf => some buf
  | fuel + 1, i, bound, buf =>
    if i < bound then do
      let b ← memGet memory i
      writeOutLoop memory fuel (wrap32 (i + 1)) bound (buf ++ [b])
    else some buf

/-- `writeOut()`, the run-phase `W`. -/
def writeOut (s : State) : Option State := do
  let (count, stack1) ← pop s.stack
  let (address, stack2) ← pop stack1
  let bound := wrap32 (address + count)
  let buf ← writeOutLoop s.memory (bound - address).toNat address bound []
  pure { s with stack := stack2, stdout := s.stdout ++ buf }

/-- Calling a closure of `runtimeDispatch`. -/
def Action.call (a : Action) (s : State) : State :=
  match a with
  | Action.pushDataspaceLabel n => { s with stack := n :: s.stack }
  | Action.callFunction n => { s with rstack := wrap32 s.pc :: s.rstack, pc := n }

/-- What one iteration of the loop of `run()` leaves: the next state, or the
state at which `quit()` ended the process. -/
inductive Outcome where
  | running (s : State)
  | exited (s : State)
  deriving DecidableEq, Repr

/-- The `switch token` of `run()`. -/
def runToken (program : List Byte) (token : Byte) (s : State) : Option Outcome :=
  if token = 40 then some (Outcome.running (jump s))                -- '('
  else if token = 87 then (writeOut s).map Outcome.running          -- 'W'
  else if token = 71 then some (Outcome.running (readByte s))       -- 'G'
  else if token = 81 then some (Outcome.exited s)                   -- 'Q'
  else if token = 45 then (subtract s).map Outcome.running          -- '-'
  else if token = 60 then (lessThan s).map Outcome.running          -- '<'
  else if token = 64 then (fetch s).map Outcome.running             -- '@'
  else if token = 33 then (store s).map Outcome.running             -- '!'
  else if token = 115 then (storeByte s).map Outcome.running        -- 's'
  else if token = 59 then (returnFromFunction s).map Outcome.running  -- ';'
  else if token = 91 then (conditional s).map Outcome.running       -- '['
  else if token = 93 ∨ token = 123 ∨ token = 32 ∨ token = 10 then
    some (Outcome.running s)                                        -- nop
  else if token = 125 then (loop s).map Outcome.running             -- '}'
  else if token = 39 then (literalByteRun program s).map Outcome.running  -- '\''
  else if isDigit token then (pushLiteral program s).map Outcome.running
  else (dispatchGet s.runtimeDispatch token).map (fun a => Outcome.running (a.call s))

/-- One iteration of the loop of `run()`. -/
def runStep (program : List Byte) (s : State) : Option Outcome := do
  let (token, s1) ← getToken program s
  runToken program token s1

/-- The loop of `run()`, for at most `fuel` iterations: `none` is a panic,
`exited` the state at `quit()`, `running` the state when the fuel ran out. -/
def runLoop (program : List Byte) : Nat → State → Option Outcome
  | 0, s => some (Outcome.running s)
  | fuel + 1, s =>
    match runStep program s with
    | none => none
    | some (Outcome.exited s1) => some (Outcome.exited s1)
    | some (Outcome.running s1) => runLoop program fuel s1

/-- `run()`: start at `startAddress`. -/
def run (program : List Byte) (fuel : Nat) (s : State) : Option Outcome :=
  runLoop program fuel { s with pc := s.startAddress }

/-- The bytes of a source text. -/
def src (text : String) : List Byte := text.toList.map (fun c => Fin.ofNat c.toNat)

/-- The common shape of the loops of `advancePastWhitespace` and
`advanceToWhitespace`: eat bytes while the cursor is inside the source and the
current byte satisfies `p`.  Used to reason about both loops at once. -/
def scanLoop (program : List Byte) (p : Byte → Bool) : Nat → State → Option State
  | 0, s => some s
  | fuel + 1, s =>
    if s.pc < program.length then do
      let c ← currentByte program s
      if p c then do
        let (_, s1) ← eatByte program s
        scanLoop program p fuel s1
      else pure s
    else pure s

/-! ## Observations on a compile run -/

/-- The tokens the loop of `compile()` dispatches from state `s`, each with the
cursor `getToken` left behind it, for at most `fuel` iterations: the list ends
when the loop ends, at a panic, or when the fuel runs out. -/
def compileTrace (program : List Byte) : Nat → State → List (Byte × Int)
  | 0, _ => []
  | fuel + 1, s =>
    if s.pc < program.length then
      match getToken program s with
      | none => []
      | some (token, s1) =>
        (token, s1.pc) ::
          (match (compileToken program token s1).bind (advancePastWhitespace program) with
           | none => []
           | some s3 => compileTrace program fuel s3)
    else []

/-- The digit run that `literalByteCompile`, `literalWord` and `allocateSpace` read
as their argument from the state `s1` in which they are called: what the loop of
`readNumber` collects after `advancePastWhitespace`. -/
def numberArgument (program : List Byte) (s1 : State) : Option (List Byte) := do
  let t ← advancePastWhitespace program s1
  let (buf, _) ← readDigits program ((program.length - t.pc).toNat + 1) t []
  pure buf

/-- The number of bytes a token dispatched by the compile loop in state `s1` adds
to the data space: one for `b`, four for `#`, and for `*` the `uint32` of what
`Atoi` makes of its argument. -/
def emitted (program : List Byte) (token : Byte) (s1 : State) : Nat :=
  if token = 98 then 1
  else if token = 35 then 4
  else if token = 42 then
    match numberArgument program s1 with
    | some ds => (atoi ds).toNat % 4294967296
    | none => 0
  else 0

/-- The byte counts `emitted` of the tokens the loop of `compile()` dispatches from
state `s`, in order, for at most `fuel` iterations. -/
def compileEmitted (program : List Byte) : Nat → State → List Nat
  | 0, _ => []
  | fuel + 1, s =>
    if s.pc < program.length then
      match getToken program s with
      | none => []
      | some (token, s1) =>
        emitted program token s1 ::
          (match (compileToken program token s1).bind (advancePastWhitespace program) with
           | none => []
           | some s3 => compileEmitted program fuel s3)
    else []

/-- The tokens that have a case of their own in the `switch` of `run()`; every
other token is looked up in `runtimeDispatch`. -/
def runBuiltin (token : Byte) : Bool :=
  token = 40 || token = 87 || token = 71 || token = 81 || token = 45 || token = 60 ||
  token = 64 || token = 33 || token = 115 || token = 59 || token = 91 || token = 93 ||
  token = 123 || token = 32 || token = 10 || token = 125 || token = 39 || isDigit token

/-- Well-nesting of a token sequence entered at nesting depth `d`: `[` and `{` open
a block, `]` and `}` close the innermost open one, no block is closed that was
not opened and none is left open.  Opening and closing tokens are not
distinguished by kind, as the compile phase does not distinguish them. -/
def balancedFrom : Nat → List Byte → Bool
  | d, [] => d == 0
  | d, t :: ts =>
    if t = 91 ∨ t = 123 then balancedFrom (d + 1) ts
    else if t = 93 ∨ t = 125 then d != 0 && balancedFrom (d - 1) ts
    else balancedFrom d ts

/-- The invariant of the compile loop on a source shorter than `2^31` bytes: the
cursor is inside the source or at its end, and the data stack holds the markers
of the blocks still open, innermost first, each a cursor value already passed
and larger than the ones beneath it. -/
def CompileInv (program : List Byte) (s : State) : Prop :=
  ∃ n : Nat, s.pc = n ∧ n ≤ program.length ∧ s.stack.Pairwise (fun x y => y < x) ∧
    ∀ x ∈ s.stack, 0 ≤ x ∧ x ≤ (n : Int)

/-! ## Lemmas on machine integers and the data space -/

theorem wrap32_of_range (z : Int) (h1 : -2147483648 ≤ z) (h2 : z < 2147483648) :
    wrap32 z = z := by
  unfold wrap32; omega

theorem wrap32_range (z : Int) : -2147483648 ≤ wrap32 z ∧ wrap32 z < 2147483648 := by
  unfold wrap32; omega

theorem wrap32_congruent (z : Int) : (wrap32 z - z) % 4294967296 = 0 := by
  unfold wrap32; omega

theorem or_bytes (a b c d : Nat) (ha : a < 256) (hb : b < 256) (hc : c < 256) :
    (a ||| (b <<< 8) ||| (c <<< 16) ||| (d <<< 24))
      = a + b * 256 + c * 65536 + d * 16777216 := by
  have h1 : a ||| (b <<< 8) = a + b * 256 := by
    have := Nat.mul_add_lt_is_or (i := 8) (b := a) (by simpa using ha) b
    rw [Nat.shiftLeft_eq, Nat.or_comm, Nat.mul_comm, ← this]; norm_num; omega
  have h2 : (a + b * 256) ||| (c <<< 16) = a + b * 256 + c * 65536 := by
    have := Nat.mul_add_lt_is_or (i := 16) (b := a + b * 256) (by norm_num; omega) c
    rw [Nat.shiftLeft_eq, Nat.or_comm, Nat.mul_comm, ← this]; norm_num; omega
  have h3 : (a + b * 256 + c * 65536) ||| (d <<< 24)
      = a + b * 256 + c * 65536 + d * 16777216 := by
    have := Nat.mul_add_lt_is_or (i := 24) (b := a + b * 256 + c * 65536)
      (by norm_num; omega) d
    rw [Nat.shiftLeft_eq, Nat.or_comm, Nat.mul_comm, ← this]; norm_num; omega
  rw [h1, h2, h3]

theorem word32_eq (b0 b1 b2 b3 : Byte) :
    word32 b0 b1 b2 b3
      = wrap32 ((b0.val : Int) + b1.val * 256 + b2.val * 65536 + b3.val * 16777216) := by
  unfold word32
  rw [or_bytes _ _ _ _ b0.isLt b1.isLt b2.isLt]
  push_cast
  rfl

theorem uint8_val (i : Int) : ((uint8 i).val : Int) = i % 256 := by
  simp only [uint8]
  omega

theorem shiftRight8 (v : Int) : v >>> (8 : Nat) = v / 256 := by
  rw [Int.shiftRight_eq_div_pow]; norm_num

theorem shiftRight16 (v : Int) : v >>> (16 : Nat) = v / 65536 := by
  rw [Int.shiftRight_eq_div_pow]; norm_num

theorem shiftRight24 (v : Int) : v >>> (24 : Nat) = v / 16777216 := by
  rw [Int.shiftRight_eq_div_pow]; norm_num

theorem word32_uint8 (v : Int) (h1 : -2147483648 ≤ v) (h2 : v < 2147483648) :
    word32 (uint8 v) (uint8 (v >>> (8 : Nat))) (uint8 (v >>> (16 : Nat)))
      (uint8 (v >>> (24 : Nat))) = v := by
  rw [word32_eq]
  simp only [uint8_val, shiftRight8, shiftRight16, shiftRight24, wrap32]
  omega

theorem memSet_of_lt (m : List Byte) (i : Int) (b : Byte) (h0 : 0 ≤ i) (h1 : i < m.length) :
    memSet m i b = some (m.set i.toNat b) := by
  simp [memSet, h0, h1]

theorem memGet_set_self (m : List Byte) (i : Int) (b : Byte) (h0 : 0 ≤ i)
    (h1 : i < m.length) : memGet (m.set i.toNat b) i = some b := by
  have : i.toNat < m.length := by omega
  simp [memGet, h0, this]

theorem memGet_set_other (m : List Byte) (i j : Int) (b : Byte) (hi : 0 ≤ i) (hj : 0 ≤ j)
    (hne : i ≠ j) : memGet (m.set i.toNat b) j = memGet m j := by
  have : i.toNat ≠ j.toNat := by omega
  simp [memGet, hj, List.getElem?_set_ne this]

theorem memGet_of_lt (m : List Byte) (i : Int) (h0 : 0 ≤ i) (h1 : i < m.length) :
    ∃ b, memGet m i = some b ∧ m[i.toNat]? = some b := by
  have h : i.toNat < m.length := by omega
  exact ⟨m[i.toNat], by simp [memGet, h0, h], by simp [h]⟩

/-- What `extend_memory` leaves is the old data space followed by zero bytes. -/
theorem extend_memory_memory (s : State) (addr : Int) :
    ∃ k, (extend_memory s addr).memory = s.memory ++ List.replicate k (0 : Byte) := by
  unfold extend_memory
  by_cases h : wrap32 (wrap32 (addr + 1) - wrap32 s.memory.length) > 0
  · exact ⟨(wrap32 (wrap32 (addr + 1) - wrap32 s.memory.length)).toNat, by simp [h]⟩
  · exact ⟨0, by simp [h]⟩

theorem extend_memory_stack (s : State) (addr : Int) :
    (extend_memory s addr).stack = s.stack := by
  unfold extend_memory
  by_cases h : wrap32 (wrap32 (addr + 1) - wrap32 s.memory.length) > 0 <;> simp [h]

/-- When `addr + 1` does not overflow, `extend_memory(addr)` leaves at least
`addr + 1` bytes. -/
theorem extend_memory_length_ge (s : State) (addr : Int) (h0 : 0 ≤ addr)
    (h1 : addr + 1 < 2147483648) :
    addr + 1 ≤ ((extend_memory s addr).memory.length : Int) := by
  unfold extend_memory
  by_cases h : wrap32 (wrap32 (addr + 1) - wrap32 s.memory.length) > 0
  · simp only [h, if_true, List.length_append, List.length_replicate]
    unfold wrap32 at h ⊢
    push_cast
    omega
  · simp only [h, if_false]
    unfold wrap32 at h
    omega

/-- The state `store` leaves when the four cells exist after `extend_memory`. -/
theorem store_eq (s : State) (A v : Int) (rest : List Int) (hA0 : 0 ≤ A)
    (hA : A + 4 < 2147483648) (hs : s.stack = A :: v :: rest) :
    store s = some
      { extend_memory { s with stack := v :: rest } (A + 3) with
        stack := rest
        memory := ((((extend_memory { s with stack := v :: rest } (A + 3)).memory.set
          A.toNat (uint8 v)).set (A + 1).toNat (uint8 (v >>> (8 : Nat)))).set
          (A + 2).toNat (uint8 (v >>> (16 : Nat)))).set
          (A + 3).toNat (uint8 (v >>> (24 : Nat))) } := by
  have hlen := extend_memory_length_ge { s with stack := v :: rest } (A + 3) (by omega)
    (by omega)
  have w1 : wrap32 (A + 1) = A + 1 := wrap32_of_range _ (by omega) (by omega)
  have w2 : wrap32 (A + 2) = A + 2 := wrap32_of_range _ (by omega) (by omega)
  have w3 : wrap32 (A + 3) = A + 3 := wrap32_of_range _ (by omega) (by omega)
  simp only [store, hs, pop, w1, w2, w3, extend_memory_stack, Option.bind_eq_bind,
    Option.some_bind, Option.pure_def, bind_pure_comp]
  rw [memSet_of_lt _ _ _ hA0 (by omega)]
  simp only [Option.some_bind]
  rw [memSet_of_lt _ _ _ (by omega) (by simp only [List.length_set]; omega)]
  simp only [Option.some_bind]
  rw [memSet_of_lt _ _ _ (by omega) (by simp only [List.length_set]; omega)]
  simp only [Option.some_bind]
  rw [memSet_of_lt _ _ _ (by omega) (by simp only [List.length_set]; omega)]
  simp

/-- The state `fetch` leaves when the four cells exist. -/
theorem fetch_eq (s : State) (A : Int) (rest : List Int) (b0 b1 b2 b3 : Byte)
    (hA : A + 3 < 2147483648) (hA0 : 0 ≤ A) (hs : s.stack = A :: rest)
    (h0 : memGet s.memory A = some b0) (h1 : memGet s.memory (A + 1) = some b1)
    (h2 : memGet s.memory (A + 2) = some b2) (h3 : memGet s.memory (A + 3) = some b3) :
    fetch s = some { s with stack := word32 b0 b1 b2 b3 :: rest } := by
  have w1 : wrap32 (A + 1) = A + 1 := wrap32_of_range _ (by omega) (by omega)
  have w2 : wrap32 (A + 2) = A + 2 := wrap32_of_range _ (by omega) (by omega)
  have w3 : wrap32 (A + 3) = A + 3 := wrap32_of_range _ (by omega) (by omega)
  simp [fetch, hs, pop, w1, w2, w3, h0, h1, h2, h3]

/-- C1 (amended): for every address `A ≥ 0` with `A + 4` representable in `int32`,
every 32-bit value `v` and every data space, `store` (`!`) with `A` on top of the
data stack and `v` below it, followed by `fetch` (`@`) with `A` on top, pushes
exactly `v`. -/
theorem store_fetch_roundtrip (s : State) (A v : Int) (rest : List Int) (hA0 : 0 ≤ A)
    (hA : A + 4 < 2147483648) (hv1 : -2147483648 ≤ v) (hv2 : v < 2147483648)
    (hs : s.stack = A :: v :: rest) :
    ∃ s1 s2, store s = some s1 ∧ s1.stack = rest ∧
      fetch { s1 with stack := A :: s1.stack } = some s2 ∧ s2.stack = v :: rest ∧
      s2.memory = s1.memory := by
  have hlen := extend_memory_length_ge { s with stack := v :: rest } (A + 3) (by omega)
    (by omega)
  refine ⟨_, _, store_eq s A v rest hA0 hA hs, rfl,
    fetch_eq _ A rest (uint8 v) (uint8 (v >>> (8 : Nat))) (uint8 (v >>> (16 : Nat)))
      (uint8 (v >>> (24 : Nat))) (by omega) hA0 rfl ?_ ?_ ?_ ?_, ?_, rfl⟩
  · simp only []
    rw [memGet_set_other _ _ _ _ (by omega) (by omega) (by omega),
      memGet_set_other _ _ _ _ (by omega) (by omega) (by omega),
      memGet_set_other _ _ _ _ (by omega) (by omega) (by omega),
      memGet_set_self _ _ _ hA0 (by omega)]
  · simp only []
    rw [memGet_set_other _ _ _ _ (by omega) (by omega) (by omega),
      memGet_set_other _ _ _ _ (by omega) (by omega) (by omega),
      memGet_set_self _ _ _ (by omega) (by simp only [List.length_set]; omega)]
  · simp only []
    rw [memGet_set_other _ _ _ _ (by omega) (by omega) (by omega),
      memGet_set_self _ _ _ (by omega) (by simp only [List.length_set]; omega)]
  · simp only []
    rw [memGet_set_self _ _ _ (by omega) (by simp only [List.length_set]; omega)]
  · simp only [word32_uint8 v hv1 hv2]

/-- Witness of `store_fetch_roundtrip`: the value `-7` at address `2` of an empty
data space. -/
theorem store_fetch_roundtrip_witness :
    ∃ s1 s2, store { State.init [] with stack := [2, -7] } = some s1 ∧ s1.stack = [] ∧
      fetch { s1 with stack := 2 :: s1.stack } = some s2 ∧ s2.stack = [-7] ∧
      s2.memory = s1.memory :=
  store_fetch_roundtrip { State.init [] with stack := [2, -7] } 2 (-7) [] (by decide)
    (by decide) (by decide) (by decide) rfl

/-- C1 as stated fails at `A = 2^31 - 4`, where `A + 3` is the largest `int32`:
`addr + 1` overflows in `extend_memory`, an empty data space is not extended and
`store` panics on `memory[addr]`, so nothing is fetched back. -/
theorem store_fetch_roundtrip_counterexample :
    (0 : Int) ≤ 2147483644 ∧ (2147483644 : Int) + 3 < 2147483648 ∧
    (extend_memory { State.init [] with stack := [7] } (2147483644 + 3)).memory = [] ∧
    store { State.init [] with stack := [2147483644, 7] } = none ∧
    ¬ ∃ s1 s2, store { State.init [] with stack := [2147483644, 7] } = some s1 ∧
      fetch { s1 with stack := 2147483644 :: s1.stack } = some s2 ∧ s2.stack = [7] := by
  refine ⟨by decide, by decide, by decide, by decide, ?_⟩
  rintro ⟨s1, s2, h, -⟩
  have h0 : store { State.init [] with stack := [2147483644, 7] } = none := by decide
  rw [h0] at h
  exact Option.noConfusion h

/-- The state `storeByte` leaves when the cell exists after `extend_memory`. -/
theorem storeByte_eq (s : State) (A v : Int) (rest : List Int) (hA0 : 0 ≤ A)
    (hlen : A < (extend_memory { s with stack := v :: rest } A).memory.length)
    (hs : s.stack = A :: v :: rest) :
    storeByte s = some
      { extend_memory { s with stack := v :: rest } A with
        stack := rest
        memory := (extend_memory { s with stack := v :: rest } A).memory.set
          A.toNat (uint8 v) } := by
  simp only [storeByte, hs, pop, extend_memory_stack, Option.bind_eq_bind,
    Option.some_bind, Option.pure_def]
  rw [memSet_of_lt _ _ _ hA0 hlen]
  simp

/-- C2 (amended): for every address `A ≥ 0` with `A + 3` representable in `int32`,
every value `v` and every data space that holds bytes `b1`, `b2`, `b3` at
`A+1 .. A+3` (so of at least `A + 4` bytes), `storeByte` (`s`) with `A` on top and
`v` below it, followed by `fetch` (`@`) of `A`, pushes a word whose low 8 bits are
`v & 0xFF` and whose upper three bytes are `b1`, `b2`, `b3`. -/
theorem storeByte_fetch (s : State) (A v : Int) (rest : List Int) (b1 b2 b3 : Byte)
    (hA0 : 0 ≤ A) (hA : A + 3 < 2147483648) (hs : s.stack = A :: v :: rest)
    (h1 : s.memory[(A + 1).toNat]? = some b1) (h2 : s.memory[(A + 2).toNat]? = some b2)
    (h3 : s.memory[(A + 3).toNat]? = some b3) :
    ∃ s1 s2 w, storeByte s = some s1 ∧ s1.stack = rest ∧
      fetch { s1 with stack := A :: s1.stack } = some s2 ∧ s2.stack = w :: rest ∧
      -2147483648 ≤ w ∧ w < 2147483648 ∧
      w % 256 = v % 256 ∧ w / 256 % 256 = b1.val ∧ w / 65536 % 256 = b2.val ∧
      w / 16777216 % 256 = b3.val := by
  have hl3 : (A + 3).toNat < s.memory.length := by
    rcases Nat.lt_or_ge (A + 3).toNat s.memory.length with h | h
    · exact h
    · rw [List.getElem?_eq_none h] at h3; exact Option.noConfusion h3
  obtain ⟨k, hk⟩ := extend_memory_memory { s with stack := v :: rest } A
  have hk' : (extend_memory { s with stack := v :: rest } A).memory
      = s.memory ++ List.replicate k (0 : Byte) := hk
  have hlen : A < (extend_memory { s with stack := v :: rest } A).memory.length := by
    rw [hk']; simp only [List.length_append, List.length_replicate]; omega
  have g : ∀ j : Int, 0 ≤ j → j.toNat < s.memory.length → ∀ b, s.memory[j.toNat]? = some b →
      A ≠ j → memGet ((extend_memory { s with stack := v :: rest } A).memory.set
        A.toNat (uint8 v)) j = some b := by
    intro j hj hjl b hb hne
    rw [memGet_set_other _ _ _ _ hA0 hj hne, hk']
    simp only [memGet, hj, if_true]
    rw [List.getElem?_append_left hjl]
    exact hb
  refine ⟨_, _, _, storeByte_eq s A v rest hA0 hlen hs, rfl,
    fetch_eq _ A rest (uint8 v) b1 b2 b3 hA hA0 rfl ?_ ?_ ?_ ?_, rfl, ?_⟩
  · exact memGet_set_self _ _ _ hA0 hlen
  · exact g (A + 1) (by omega) (by omega) b1 h1 (by omega)
  · exact g (A + 2) (by omega) (by omega) b2 h2 (by omega)
  · exact g (A + 3) (by omega) (by omega) b3 h3 (by omega)
  · rw [word32_eq, uint8_val]
    have := b1.isLt
    have := b2.isLt
    have := b3.isLt
    unfold wrap32
    omega

/-- Witness of `storeByte_fetch`: the value `0x1234` stored as a byte at address `1`
of the data space `[9, 8, 7, 6, 5]`. -/
theorem storeByte_fetch_witness :
    ∃ s1 s2 w, storeByte { State.init [] with stack := [1, 4660], memory := [9, 8, 7, 6, 5] }
        = some s1 ∧ s1.stack = [] ∧
      fetch { s1 with stack := 1 :: s1.stack } = some s2 ∧ s2.stack = w :: [] ∧
      -2147483648 ≤ w ∧ w < 2147483648 ∧
      w % 256 = 4660 % 256 ∧ w / 256 % 256 = (7 : Byte).val ∧
      w / 65536 % 256 = (6 : Byte).val ∧ w / 16777216 % 256 = (5 : Byte).val :=
  storeByte_fetch { State.init [] with stack := [1, 4660], memory := [9, 8, 7, 6, 5] }
    1 4660 [] 7 6 5 (by decide) (by decide) rfl (by decide) (by decide) (by decide)

/-- C2 as stated fails on a data space shorter than `A + 4` bytes: on the empty
data space `storeByte` at address `0` leaves one byte and the following `fetch`
panics on `memory[addr+1]`. -/
theorem storeByte_fetch_counterexample :
    (storeByte { State.init [] with stack := [0, 65] }).map (fun s1 => s1.memory)
      = some [65] ∧
    (storeByte { State.init [] with stack := [0, 65] }).bind
      (fun s1 => fetch { s1 with stack := 0 :: s1.stack }) = none := by
  decide

/-- C3 (amended): `extend_memory(addr)` never shrinks the data space: it leaves the
old bytes followed by zero bytes, and touches nothing else; and for every data
space shorter than `2^31` bytes and every address `0 ≤ addr ≤ 2^31 - 2` (so that
`addr + 1` is an `int32`) the length it leaves is `max(len(m), addr + 1)`. -/
theorem extend_memory_spec (s : State) (addr : Int) :
    (∃ k, extend_memory s addr = { s with memory := s.memory ++ List.replicate k (0 : Byte) }) ∧
    s.memory.length ≤ (extend_memory s addr).memory.length ∧
    (0 ≤ addr → addr + 1 < 2147483648 → (s.memory.length : Int) < 2147483648 →
      ((extend_memory s addr).memory.length : Int) = max (s.memory.length : Int) (addr + 1)) := by
  by_cases h : wrap32 (wrap32 (addr + 1) - wrap32 s.memory.length) > 0
  · refine ⟨⟨(wrap32 (wrap32 (addr + 1) - wrap32 s.memory.length)).toNat, ?_⟩, ?_, ?_⟩
    · simp [extend_memory, h]
    · simp [extend_memory, h]
    · intro h0 h1 h2
      simp only [extend_memory, h, if_true, List.length_append, List.length_replicate]
      unfold wrap32 at h ⊢
      push_cast
      omega
  · refine ⟨⟨0, ?_⟩, ?_, ?_⟩
    · simp [extend_memory, h]
    · simp [extend_memory, h]
    · intro h0 h1 h2
      simp only [extend_memory, h, if_false]
      unfold wrap32 at h
      omega

/-- Witness of `extend_memory_spec`: a two-byte data space extended to address `4`
holds five bytes. -/
theorem extend_memory_spec_witness :
    ((extend_memory { State.init [] with memory := [3, 4] } 4).memory.length : Int)
      = max (([3, 4] : List Byte).length : Int) (4 + 1) :=
  (extend_memory_spec { State.init [] with memory := [3, 4] } 4).2.2 (by decide) (by decide)
    (by decide)

/-- C3 as stated fails at `addr = 2^31 - 1`: `addr + 1` overflows to a negative
`int32`, so the empty data space is left empty instead of growing to `addr + 1`
bytes. -/
theorem extend_memory_counterexample :
    (0 : Int) ≤ 2147483647 ∧
    (extend_memory (State.init []) 2147483647).memory = [] ∧
    ((extend_memory (State.init []) 2147483647).memory.length : Int)
      ≠ max (((State.init []).memory.length : Nat) : Int) (2147483647 + 1) := by
  decide

/-- C4: on a data stack `x :: y :: rest` the `-` token leaves `r :: rest`, where `r`
is the signed 32-bit integer congruent to `y - x` modulo `2^32`; the elements
below the operands and everything else are unchanged. -/
theorem subtract_spec (s : State) (x y : Int) (rest : List Int) :
    ∃ r, subtract { s with stack := x :: y :: rest } = some { s with stack := r :: rest } ∧
      -2147483648 ≤ r ∧ r < 2147483648 ∧ (r - (y - x)) % 4294967296 = 0 ∧
      (-2147483648 ≤ y - x → y - x < 2147483648 → r = y - x) := by
  refine ⟨wrap32 (y - x), ?_, (wrap32_range _).1, (wrap32_range _).2, wrap32_congruent _,
    fun h1 h2 => wrap32_of_range _ h1 h2⟩
  simp [subtract, pop2]

/-- Witness of `subtract_spec`: `5 3 -` leaves `2`, and the most negative integer
minus one wraps around to the most positive one. -/
theorem subtract_spec_witness :
    subtract { State.init [] with stack := [3, 5, 11] }
      = some { State.init [] with stack := [2, 11] } ∧
    subtract { State.init [] with stack := [1, -2147483648, 11] }
      = some { State.init [] with stack := [2147483647, 11] } := by
  obtain ⟨r, h, -, -, -, hr⟩ := subtract_spec (State.init []) 3 5 [11]
  have hr2 : r = 2 := hr (by decide) (by decide)
  subst hr2
  exact ⟨h, by decide⟩

/-- C5: on a data stack `b :: a :: rest` the `<` token leaves `r :: rest` with
`r = 1` when `a < b` as signed integers and `r = 0` otherwise; equal operands
give `0`. -/
theorem lessThan_spec (s : State) (a b : Int) (rest : List Int) :
    lessThan { s with stack := b :: a :: rest }
      = some { s with stack := (if a < b then 1 else 0) :: rest } ∧
    lessThan { s with stack := a :: a :: rest } = some { s with stack := 0 :: rest } := by
  constructor
  · by_cases h : a < b <;> simp [lessThan, pop2, h]
  · simp [lessThan, pop2]

/-! ## The scanner -/

theorem advancePastWhitespaceLoop_eq (program : List Byte) (fuel : Nat) (s : State) :
    advancePastWhitespaceLoop program fuel s = scanLoop program isWhitespace fuel s := by
  induction fuel generalizing s with
  | zero => rfl
  | succ n ih => simp only [advancePastWhitespaceLoop, scanLoop, ih]

theorem advanceToWhitespaceLoop_eq (program : List Byte) (fuel : Nat) (s : State) :
    advanceToWhitespaceLoop program fuel s
      = scanLoop program (fun c => !isWhitespace c) fuel s := by
  induction fuel generalizing s with
  | zero => rfl
  | succ n ih => simp only [advanceToWhitespaceLoop, scanLoop, ih]

theorem currentByte_of_pc (program : List Byte) (s : State) (n : Nat) (h : s.pc = n) :
    currentByte program s = program[n]? := by
  simp [currentByte, h]

theorem eatByte_of_pc (program : List Byte) (s : State) (n : Nat) (c : Byte)
    (h : s.pc = n) (hc : program[n]? = some c) :
    eatByte program s = some (c, { s with pc := ((n + 1 : Nat) : Int) }) := by
  simp [eatByte, currentByte_of_pc program s n h, hc, h]

/-- The scanner loop stops at the first offset `m ≥ pc` that is the end of the
source or holds a byte failing `p`; only the cursor changes. -/
theorem scanLoop_spec (program : List Byte) (p : Byte → Bool) :
    ∀ (fuel : Nat) (s : State) (n : Nat), s.pc = n → program.length - n ≤ fuel →
      ∃ m : Nat, scanLoop program p fuel s = some { s with pc := (m : Int) } ∧ n ≤ m ∧
        (m ≤ program.length ∨ m = n) ∧
        (∀ j, n ≤ j → j < m → ∃ w, program[j]? = some w ∧ p w = true) ∧
        (∀ w, program[m]? = some w → p w = false) := by
  intro fuel
  induction fuel with
  | zero =>
    intro s n hn hf
    refine ⟨n, ?_, le_refl _, Or.inr rfl, fun j h1 h2 => absurd h2 (by omega), ?_⟩
    · simp only [scanLoop, ← hn]
    · intro w hw
      rw [List.getElem?_eq_none (by omega)] at hw
      exact Option.noConfusion hw
  | succ fuel ih =>
    intro s n hn hf
    by_cases hlt : n < program.length
    · have hc : program[n]? = some program[n] := List.getElem?_eq_getElem hlt
      have hpc : s.pc < (program.length : Int) := by omega
      by_cases hp : p program[n] = true
      · obtain ⟨m, hm, h1, h2, h3, h4⟩ :=
          ih { s with pc := ((n + 1 : Nat) : Int) } (n + 1) rfl (by omega)
        refine ⟨m, ?_, by omega, Or.inl (by omega), ?_, h4⟩
        · simp only [scanLoop, hpc, if_true, currentByte_of_pc program s n hn, hc,
            eatByte_of_pc program s n _ hn hc, hp, Option.bind_eq_bind, Option.some_bind, hm]
        · intro j hj1 hj2
          by_cases hjn : j = n
          · subst hjn; exact ⟨_, hc, hp⟩
          · exact h3 j (by omega) hj2
      · refine ⟨n, ?_, le_refl _, Or.inr rfl, fun j h1 h2 => absurd h2 (by omega), ?_⟩
        · simp only [scanLoop, hpc, if_true, currentByte_of_pc program s n hn, hc, hp,
            Option.bind_eq_bind, Option.some_bind, ← hn]
          rfl
        · intro w hw
          rw [hc] at hw
          cases hw
          simpa using hp
    · refine ⟨n, ?_, le_refl _, Or.inr rfl, fun j h1 h2 => absurd h2 (by omega), ?_⟩
      · have hpc : ¬ s.pc < (program.length : Int) := by omega
        simp only [scanLoop, hpc, if_false, ← hn]
        rfl
      · intro w hw
        rw [List.getElem?_eq_none (by omega)] at hw
        exact Option.noConfusion hw

set_option maxRecDepth 100000 in
theorem isDigit_iff (c : Byte) : isDigit c = true ↔ 48 ≤ c.val ∧ c.val ≤ 57 := by
  revert c; decide

set_option maxRecDepth 100000 in
theorem isWhitespace_iff (c : Byte) : isWhitespace c = true ↔ c = 32 ∨ c = 10 ∨ c = 9 := by
  revert c; decide

set_option maxRecDepth 100000 in
theorem isWhitespace_false_iff (c : Byte) :
    isWhitespace c = false ↔ c ≠ 32 ∧ c ≠ 10 ∧ c ≠ 9 := by
  revert c; decide

theorem advancePastWhitespace_spec (program : List Byte) (s : State) (n : Nat)
    (hn : s.pc = n) :
    ∃ m : Nat, advancePastWhitespace program s = some { s with pc := (m : Int) } ∧ n ≤ m ∧
      (m ≤ program.length ∨ m = n) ∧
      (∀ j, n ≤ j → j < m → ∃ w, program[j]? = some w ∧ isWhitespace w = true) ∧
      (∀ w, program[m]? = some w → isWhitespace w = false) := by
  unfold advancePastWhitespace
  rw [advancePastWhitespaceLoop_eq]
  exact scanLoop_spec program isWhitespace ((program.length - s.pc).toNat) s n hn
    (by rw [hn]; omega)

theorem advanceToWhitespace_spec (program : List Byte) (s : State) (n : Nat)
    (hn : s.pc = n) :
    ∃ m : Nat, advanceToWhitespace program s = some { s with pc := (m : Int) } ∧ n ≤ m ∧
      (m ≤ program.length ∨ m = n) ∧
      (∀ j, n ≤ j → j < m → ∃ w, program[j]? = some w ∧ isWhitespace w = false) ∧
      (∀ w, program[m]? = some w → isWhitespace w = true) := by
  unfold advanceToWhitespace
  rw [advanceToWhitespaceLoop_eq]
  obtain ⟨m, h1, h2, h3, h4, h5⟩ :=
    scanLoop_spec program (fun c => !isWhitespace c) ((program.length - s.pc).toNat) s n hn
      (by rw [hn]; omega)
  refine ⟨m, h1, h2, h3, ?_, ?_⟩
  · intro j hj1 hj2
    obtain ⟨w, hw, hp⟩ := h4 j hj1 hj2
    exact ⟨w, hw, by simpa using hp⟩
  · intro w hw
    simpa using h5 w hw

/-- What `getToken` does from cursor `n`: with `i` the first offset at or after `n`
that is not a whitespace byte, it panics when `i` is the end of the source, and
otherwise returns the byte at `i` and moves only the cursor: to `i` for a digit
or an apostrophe, else to the end of the word. -/
theorem getToken_cases (program : List Byte) (s : State) (n : Nat) (hn : s.pc = n) :
    ∃ i : Nat, n ≤ i ∧
      (∀ j, n ≤ j → j < i → ∃ w, program[j]? = some w ∧ isWhitespace w = true) ∧
      (program[i]? = none → getToken program s = none) ∧
      (∀ c, program[i]? = some c → isWhitespace c = false ∧
        ∃ m : Nat, getToken program s = some (c, { s with pc := (m : Int) }) ∧
          ((isDigit c = true ∨ c = 39) → m = i) ∧
          (¬ (isDigit c = true ∨ c = 39) → i < m ∧ m ≤ program.length ∧
            (∀ j, i < j → j < m → ∃ w, program[j]? = some w ∧ isWhitespace w = false) ∧
            (∀ w, program[m]? = some w → isWhitespace w = true))) := by
  obtain ⟨i, hi, h1, -, h3, h4⟩ := advancePastWhitespace_spec program s n hn
  have hcb : currentByte program { s with pc := (i : Int) } = program[i]? :=
    currentByte_of_pc program _ i rfl
  refine ⟨i, h1, h3, ?_, ?_⟩
  · intro hnone
    simp only [getToken, hi, hcb, hnone, Option.bind_eq_bind,
      Option.some_bind, Option.none_bind]
  · intro c hc
    refine ⟨h4 c hc, ?_⟩
    have hil : i < program.length := by
      rcases Nat.lt_or_ge i program.length with h | h
      · exact h
      · rw [List.getElem?_eq_none h] at hc; exact Option.noConfusion hc
    by_cases hd : isDigit c = true ∨ c = 39
    · refine ⟨i, ?_, fun _ => rfl, fun h => absurd hd h⟩
      have : (!isDigit c && c != 39) = false := by
        rcases hd with h | h
        · simp [h]
        · simp [h]
      simp only [getToken, hi, hcb, hc, Option.bind_eq_bind,
        Option.some_bind, this, Bool.false_eq_true, if_false, Option.pure_def]
    · obtain ⟨m, hm, g1, g2, g3, g4⟩ :=
        advanceToWhitespace_spec program { s with pc := (i : Int) } i rfl
      have hne : i ≠ m := by
        intro h
        have := g4 c (h ▸ hc)
        rw [h4 c hc] at this
        exact Bool.noConfusion this
      have hcond : (!isDigit c && c != 39) = true := by
        simp only [not_or] at hd
        simp [hd.1, hd.2]
      refine ⟨m, ?_, fun h => absurd h hd, fun _ => ⟨by omega, by omega, ?_, g4⟩⟩
      · simp only [getToken, hi, hcb, hc, Option.bind_eq_bind,
          Option.some_bind, hcond, if_true, hm, Option.pure_def]
      · intro j hj1 hj2
        exact g3 j (by omega) hj2

/-- C6: when some non-whitespace byte lies at or after the cursor, `getToken`
returns the first byte, at offset `i ≥ pc`, that is not space, newline or tab and
changes only the cursor, which becomes `i` when that byte is a decimal digit or
an apostrophe, and otherwise the least offset after `i` that holds a whitespace
byte, or the source length if there is none. -/
theorem getToken_spec (program : List Byte) (s : State) (n k : Nat) (hn : s.pc = n)
    (hk1 : n ≤ k) (hk : ∃ w, program[k]? = some w ∧ w ≠ 32 ∧ w ≠ 10 ∧ w ≠ 9) :
    ∃ (i : Nat) (c : Byte) (m : Nat),
      getToken program s = some (c, { s with pc := (m : Int) }) ∧
      n ≤ i ∧ program[i]? = some c ∧ (c ≠ 32 ∧ c ≠ 10 ∧ c ≠ 9) ∧
      (∀ j, n ≤ j → j < i →
        program[j]? = some 32 ∨ program[j]? = some 10 ∨ program[j]? = some 9) ∧
      (((48 ≤ c.val ∧ c.val ≤ 57) ∨ c = 39) → m = i) ∧
      (¬ ((48 ≤ c.val ∧ c.val ≤ 57) ∨ c = 39) →
        i < m ∧ m ≤ program.length ∧
        (∀ j, i < j → j < m → ∃ w, program[j]? = some w ∧ w ≠ 32 ∧ w ≠ 10 ∧ w ≠ 9) ∧
        (m < program.length →
          program[m]? = some 32 ∨ program[m]? = some 10 ∨ program[m]? = some 9)) := by
  obtain ⟨i, h1, h2, h3, h4⟩ := getToken_cases program s n hn
  obtain ⟨w, hw, hws⟩ := hk
  have hik : i ≤ k := by
    by_contra hcon
    obtain ⟨w', hw', hws'⟩ := h2 k hk1 (by omega)
    rw [hw] at hw'
    cases hw'
    rw [(isWhitespace_false_iff w).2 hws] at hws'
    exact Bool.noConfusion hws'
  have hkl : k < program.length := by
    rcases Nat.lt_or_ge k program.length with h | h
    · exact h
    · rw [List.getElem?_eq_none h] at hw; exact Option.noConfusion hw
  have hc : program[i]? = some program[i] := List.getElem?_eq_getElem (by omega)
  obtain ⟨hcw, m, hm, g1, g2⟩ := h4 _ hc
  refine ⟨i, program[i], m, hm, h1, hc, (isWhitespace_false_iff _).1 hcw, ?_, ?_, ?_⟩
  · intro j hj1 hj2
    obtain ⟨w', hw', hws'⟩ := h2 j hj1 hj2
    rw [hw']
    rcases (isWhitespace_iff w').1 hws' with h | h | h
    · exact Or.inl (by rw [h])
    · exact Or.inr (Or.inl (by rw [h]))
    · exact Or.inr (Or.inr (by rw [h]))
  · intro h
    exact g1 (h.imp_left (isDigit_iff _).2)
  · intro h
    have h' : ¬ (isDigit program[i] = true ∨ program[i] = 39) := fun hh =>
      h (hh.imp_left (isDigit_iff _).1)
    obtain ⟨a1, a2, a3, a4⟩ := g2 h'
    refine ⟨a1, a2, ?_, ?_⟩
    · intro j hj1 hj2
      obtain ⟨w', hw', hws'⟩ := a3 j hj1 hj2
      exact ⟨w', hw', (isWhitespace_false_iff _).1 hws'⟩
    · intro hml
      have hm' : program[m]? = some program[m] := List.getElem?_eq_getElem hml
      have := a4 _ hm'
      rw [hm']
      rcases (isWhitespace_iff _).1 this with h | h | h
      · exact Or.inl (by rw [h])
      · exact Or.inr (Or.inl (by rw [h]))
      · exact Or.inr (Or.inr (by rw [h]))

/-- Witness of `getToken_spec`: in `"  ab cd"` from cursor `0` the token is `a`, at
offset `2`. -/
theorem getToken_spec_witness :
    ∃ (i : Nat) (c : Byte) (m : Nat),
      getToken (src "  ab cd") (State.init []) = some (c, { State.init [] with pc := (m : Int) }) ∧
      0 ≤ i ∧ (src "  ab cd")[i]? = some c ∧ (c ≠ 32 ∧ c ≠ 10 ∧ c ≠ 9) ∧
      (∀ j, 0 ≤ j → j < i → (src "  ab cd")[j]? = some 32 ∨ (src "  ab cd")[j]? = some 10 ∨
        (src "  ab cd")[j]? = some 9) ∧
      (((48 ≤ c.val ∧ c.val ≤ 57) ∨ c = 39) → m = i) ∧
      (¬ ((48 ≤ c.val ∧ c.val ≤ 57) ∨ c = 39) →
        i < m ∧ m ≤ (src "  ab cd").length ∧
        (∀ j, i < j → j < m → ∃ w, (src "  ab cd")[j]? = some w ∧ w ≠ 32 ∧ w ≠ 10 ∧ w ≠ 9) ∧
        (m < (src "  ab cd").length → (src "  ab cd")[m]? = some 32 ∨
          (src "  ab cd")[m]? = some 10 ∨ (src "  ab cd")[m]? = some 9)) :=
  getToken_spec (src "  ab cd") (State.init []) 0 3 rfl (by decide)
    ⟨98, by decide, by decide, by decide, by decide⟩

/-! ## The compile phase: what each handler changes -/

theorem eatByte_some (program : List Byte) (s s1 : State) (c : Byte) (n : Nat)
    (hn : s.pc = n) (h : eatByte program s = some (c, s1)) :
    program[n]? = some c ∧ s1 = { s with pc := ((n + 1 : Nat) : Int) } ∧
      n < program.length := by
  have hl : n < program.length := by
    rcases Nat.lt_or_ge n program.length with hl | hl
    · exact hl
    · simp [eatByte, currentByte_of_pc program s n hn, List.getElem?_eq_none hl] at h
  have hc : program[n]? = some program[n] := List.getElem?_eq_getElem hl
  rw [eatByte_of_pc program s n _ hn hc] at h
  simp only [Option.some.injEq, Prod.mk.injEq] at h
  exact ⟨by rw [hc, h.1], h.2.symm, hl⟩

theorem readDigits_some (program : List Byte) :
    ∀ (fuel : Nat) (s s1 : State) (buf buf1 : List Byte) (n : Nat), s.pc = n →
      readDigits program fuel s buf = some (buf1, s1) →
      ∃ m : Nat, s1 = { s with pc := (m : Int) } ∧ n < m ∧ m ≤ program.length := by
  intro fuel
  induction fuel with
  | zero =>
    intro s s1 buf buf1 n _ h
    simp [readDigits] at h
  | succ fuel ih =>
    intro s s1 buf buf1 n hn h
    simp only [readDigits, Option.bind_eq_bind] at h
    cases he : eatByte program s with
    | none => simp [he] at h
    | some r =>
      obtain ⟨c, t⟩ := r
      obtain ⟨-, ht, hl⟩ := eatByte_some program s t c n hn he
      simp only [he, Option.some_bind] at h
      by_cases hd : isDigit c = true
      · simp only [hd, if_true] at h
        obtain ⟨m, hm, h1, h2⟩ := ih t s1 _ buf1 (n + 1) (by rw [ht]) h
        exact ⟨m, by rw [hm, ht], by omega, h2⟩
      · simp only [hd, if_false, Option.pure_def, Option.some.injEq, Prod.mk.injEq,
          Bool.false_eq_true] at h
        exact ⟨n + 1, by rw [← h.2, ht], by omega, by omega⟩

theorem readNumber_some (program : List Byte) (s s1 : State) (v n : Nat) (hn : s.pc = n)
    (h : readNumber program s = some (v, s1)) :
    ∃ m : Nat, s1 = { s with pc := (m : Int) } ∧ n < m ∧ m ≤ program.length := by
  simp only [readNumber, Option.bind_eq_bind] at h
  cases hr : readDigits program ((program.length - s.pc).toNat + 1) s [] with
  | none => simp [hr] at h
  | some r =>
    obtain ⟨buf, t⟩ := r
    simp only [hr, Option.some_bind, Option.pure_def, Option.some.injEq, Prod.mk.injEq] at h
    obtain ⟨m, hm, h1, h2⟩ := readDigits_some program _ s t [] buf n hn hr
    exact ⟨m, by rw [← h.2, hm], h1, h2⟩

theorem eatCommentLoop_some (program : List Byte) :
    ∀ (fuel : Nat) (s s1 : State) (n : Nat), s.pc = n →
      eatCommentLoop program fuel s = some s1 →
      ∃ e : Nat, s1 = { s with pc := (e : Int) } ∧ n < e ∧ e ≤ program.length ∧
        program[e - 1]? = some 41 ∧ ∀ i, n ≤ i → i < e - 1 → program[i]? ≠ some 41 := by
  intro fuel
  induction fuel with
  | zero =>
    intro s s1 n _ h
    simp [eatCommentLoop] at h
  | succ fuel ih =>
    intro s s1 n hn h
    simp only [eatCommentLoop, Option.bind_eq_bind] at h
    cases he : eatByte program s with
    | none => simp [he] at h
    | some r =>
      obtain ⟨c, t⟩ := r
      obtain ⟨hc, ht, hl⟩ := eatByte_some program s t c n hn he
      simp only [he, Option.some_bind] at h
      by_cases hd : c = 41
      · simp only [hd, bne_self_eq_false, Bool.false_eq_true, if_false, Option.pure_def,
          Option.some.injEq] at h
        refine ⟨n + 1, by rw [← h, ht], by omega, by omega, ?_, ?_⟩
        · rw [Nat.add_sub_cancel, hc, hd]
        · intro i h1 h2
          omega
      · have hne : (c != 41) = true := by simpa using hd
        simp only [hne, if_true] at h
        obtain ⟨e, hm, h1, h2, h3, h4⟩ := ih t s1 (n + 1) (by rw [ht]) h
        refine ⟨e, by rw [hm, ht], by omega, h2, h3, ?_⟩
        intro i hi1 hi2
        by_cases hin : i = n
        · subst hin
          rw [hc]
          intro hcon
          exact hd (Option.some.inj hcon)
        · exact h4 i (by omega) hi2

theorem advancePastWhitespace_some (program : List Byte) (s s1 : State) (n : Nat)
    (hn : s.pc = n) (hl : n ≤ program.length) (h : advancePastWhitespace program s = some s1) :
    ∃ m : Nat, s1 = { s with pc := (m : Int) } ∧ n ≤ m ∧ m ≤ program.length := by
  obtain ⟨m, hm, h1, h2, -, -⟩ := advancePastWhitespace_spec program s n hn
  rw [hm] at h
  exact ⟨m, (Option.some.inj h).symm, h1, by omega⟩

/-- When `getToken` returns, only the cursor has moved: the token is the byte at the
first non-whitespace offset `i`, and the cursor is at `i` for a digit or an
apostrophe and at the end of the word otherwise. -/
theorem getToken_some (program : List Byte) (s s1 : State) (c : Byte) (n : Nat)
    (hn : s.pc = n) (h : getToken program s = some (c, s1)) :
    ∃ i m : Nat, s1 = { s with pc := (m : Int) } ∧ n ≤ i ∧ i ≤ m ∧ m ≤ program.length ∧
      i < program.length ∧ program[i]? = some c ∧ isWhitespace c = false ∧
      (∀ j, n ≤ j → j < i → ∃ w, program[j]? = some w ∧ isWhitespace w = true) ∧
      ((isDigit c = true ∨ c = 39) → m = i) ∧
      (¬ (isDigit c = true ∨ c = 39) → i < m ∧
        (∀ j, i < j → j < m → ∃ w, program[j]? = some w ∧ isWhitespace w = false) ∧
        (∀ w, program[m]? = some w → isWhitespace w = true)) := by
  obtain ⟨i, h1, h2, h3, h4⟩ := getToken_cases program s n hn
  have hil : i < program.length := by
    rcases Nat.lt_or_ge i program.length with hl | hl
    · exact hl
    · rw [h3 (List.getElem?_eq_none hl)] at h; exact Option.noConfusion h
  have hc : program[i]? = some program[i] := List.getElem?_eq_getElem hil
  obtain ⟨hw, m, hm, g1, g2⟩ := h4 _ hc
  rw [hm] at h
  simp only [Option.some.injEq, Prod.mk.injEq] at h
  obtain ⟨hcc, hs⟩ := h
  subst hcc
  refine ⟨i, m, hs.symm, h1, ?_, ?_, hil, hc, hw, h2, g1, ?_⟩
  · by_cases hd : isDigit program[i] = true ∨ program[i] = 39
    · rw [g1 hd]
    · exact Nat.le_of_lt (g2 hd).1
  · by_cases hd : isDigit program[i] = true ∨ program[i] = 39
    · rw [g1 hd]; omega
    · exact (g2 hd).2.1
  · intro hd
    exact ⟨(g2 hd).1, (g2 hd).2.2.1, (g2 hd).2.2.2⟩

theorem dataspaceLabel_some (program : List Byte) (s1 s2 : State) (a : Nat)
    (ha : s1.pc = a) (h : dataspaceLabel program s1 = some s2) :
    ∃ (name : Byte) (m : Nat),
      s2 = define name (Action.pushDataspaceLabel (wrap32 s1.memory.length))
        { s1 with pc := (m : Int) } ∧ a ≤ m ∧ m ≤ program.length := by
  simp only [dataspaceLabel, Option.bind_eq_bind] at h
  cases hg : getToken program s1 with
  | none => simp [hg] at h
  | some r =>
    obtain ⟨name, t⟩ := r
    simp only [hg, Option.some_bind, Option.pure_def, Option.some.injEq] at h
    obtain ⟨i, m, ht, h1, h2, h3, -⟩ := getToken_some program s1 t name a ha hg
    subst ht
    exact ⟨name, m, h.symm, by omega, h3⟩

theorem defineFunction_some (program : List Byte) (s1 s2 : State) (a : Nat)
    (ha : s1.pc = a) (h : defineFunction program s1 = some s2) :
    ∃ (name : Byte) (m : Nat),
      s2 = define name (Action.callFunction (m : Int)) { s1 with pc := (m : Int) } ∧
        a ≤ m ∧ m ≤ program.length := by
  simp only [defineFunction, Option.bind_eq_bind] at h
  cases hg : getToken program s1 with
  | none => simp [hg] at h
  | some r =>
    obtain ⟨name, t⟩ := r
    simp only [hg, Option.some_bind, Option.pure_def, Option.some.injEq] at h
    obtain ⟨i, m, ht, h1, h2, h3, -⟩ := getToken_some program s1 t name a ha hg
    subst ht
    exact ⟨name, m, h.symm, by omega, h3⟩

/-- The common part of `literalByteCompile`, `literalWord` and `allocateSpace`:
skip whitespace, then read a number. -/
theorem skip_readNumber_some (program : List Byte) (s1 t u : State) (v a : Nat)
    (ha : s1.pc = a) (hal : a ≤ program.length)
    (h1 : advancePastWhitespace program s1 = some t) (h2 : readNumber program t = some (v, u)) :
    ∃ m : Nat, u = { s1 with pc := (m : Int) } ∧ a < m ∧ m ≤ program.length := by
  obtain ⟨k, hk, g1, g2⟩ := advancePastWhitespace_some program s1 t a ha hal h1
  obtain ⟨m, hm, g3, g4⟩ := readNumber_some program t u v k (by rw [hk]) h2
  exact ⟨m, by rw [hm, hk], by omega, g4⟩

theorem literalByteCompile_some (program : List Byte) (s1 s2 : State) (a : Nat)
    (ha : s1.pc = a) (hal : a ≤ program.length) (h : literalByteCompile program s1 = some s2) :
    ∃ v m : Nat, s2 = { s1 with pc := (m : Int), memory := s1.memory ++ [uint8n v] } ∧
      a < m ∧ m ≤ program.length := by
  simp only [literalByteCompile, Option.bind_eq_bind] at h
  cases h1 : advancePastWhitespace program s1 with
  | none => simp [h1] at h
  | some t =>
    simp only [h1, Option.some_bind] at h
    cases h2 : readNumber program t with
    | none => simp [h2] at h
    | some r =>
      obtain ⟨v, u⟩ := r
      simp only [h2, Option.some_bind, Option.pure_def, Option.some.injEq] at h
      obtain ⟨m, hm, g1, g2⟩ := skip_readNumber_some program s1 t u v a ha hal h1 h2
      subst hm
      exact ⟨v, m, h.symm, g1, g2⟩

theorem literalWord_some (program : List Byte) (s1 s2 : State) (a : Nat)
    (ha : s1.pc = a) (hal : a ≤ program.length) (h : literalWord program s1 = some s2) :
    ∃ v m : Nat, s2 = { s1 with pc := (m : Int), memory := s1.memory ++
        [uint8n v, uint8n (v >>> 8), uint8n (v >>> 16), uint8n (v >>> 24)] } ∧
      a < m ∧ m ≤ program.length := by
  simp only [literalWord, Option.bind_eq_bind] at h
  cases h1 : advancePastWhitespace program s1 with
  | none => simp [h1] at h
  | some t =>
    simp only [h1, Option.some_bind] at h
    cases h2 : readNumber program t with
    | none => simp [h2] at h
    | some r =>
      obtain ⟨v, u⟩ := r
      simp only [h2, Option.some_bind, Option.pure_def, Option.some.injEq] at h
      obtain ⟨m, hm, g1, g2⟩ := skip_readNumber_some program s1 t u v a ha hal h1 h2
      subst hm
      exact ⟨v, m, h.symm, g1, g2⟩

theorem allocateSpace_some (program : List Byte) (s1 s2 : State) (a : Nat)
    (ha : s1.pc = a) (hal : a ≤ program.length) (h : allocateSpace program s1 = some s2) :
    ∃ v m : Nat,
      s2 = { s1 with pc := (m : Int), memory := s1.memory ++ List.replicate v (0 : Byte) } ∧
      a < m ∧ m ≤ program.length := by
  simp only [allocateSpace, Option.bind_eq_bind] at h
  cases h1 : advancePastWhitespace program s1 with
  | none => simp [h1] at h
  | some t =>
    simp only [h1, Option.some_bind] at h
    cases h2 : readNumber program t with
    | none => simp [h2] at h
    | some r =>
      obtain ⟨v, u⟩ := r
      simp only [h2, Option.some_bind, Option.pure_def, Option.some.injEq] at h
      obtain ⟨m, hm, g1, g2⟩ := skip_readNumber_some program s1 t u v a ha hal h1 h2
      subst hm
      exact ⟨v, m, h.symm, g1, g2⟩

theorem skipLiteralByte_some (program : List Byte) (s1 s2 : State) (a : Nat)
    (ha : s1.pc = a) (h : skipLiteralByte program s1 = some s2) :
    s2 = { s1 with pc := ((a + 2 : Nat) : Int) } ∧ a + 2 ≤ program.length := by
  simp only [skipLiteralByte, Option.bind_eq_bind] at h
  cases h1 : eatByte program s1 with
  | none => simp [h1] at h
  | some r =>
    obtain ⟨c, t⟩ := r
    simp only [h1, Option.some_bind] at h
    obtain ⟨-, ht, -⟩ := eatByte_some program s1 t c a ha h1
    cases h2 : eatByte program t with
    | none => simp [h2] at h
    | some r2 =>
      obtain ⟨c2, u⟩ := r2
      simp only [h2, Option.some_bind, Option.pure_def, Option.some.injEq] at h
      obtain ⟨-, hu, hl⟩ := eatByte_some program t u c2 (a + 1) (by rw [ht]) h2
      exact ⟨by rw [← h, hu, ht], by omega⟩

theorem eatComment_some (program : List Byte) (s1 s2 : State) (a : Nat)
    (ha : s1.pc = a) (h : eatComment program s1 = some s2) :
    ∃ e : Nat, s2 = { s1 with pc := (e : Int), jumps := ((a : Int), (e : Int)) :: s1.jumps } ∧
      a < e ∧ e ≤ program.length ∧ program[e - 1]? = some 41 ∧
      ∀ i, a ≤ i → i < e - 1 → program[i]? ≠ some 41 := by
  simp only [eatComment, Option.bind_eq_bind] at h
  cases h1 : eatCommentLoop program ((program.length - s1.pc).toNat + 1) s1 with
  | none => simp [h1] at h
  | some t =>
    simp only [h1, Option.some_bind, Option.pure_def, Option.some.injEq] at h
    obtain ⟨e, he, g1, g2, g3, g4⟩ := eatCommentLoop_some program _ s1 t a ha h1
    subst he
    exact ⟨e, by rw [← h, ha], g1, g2, g3, g4⟩

/-- Tokens other than `(`, `[`, `{`, `]`, `}` leave the data stack and the jump map
as they are, and never move the cursor backwards or past the end. -/
theorem compileToken_other (program : List Byte) (tok : Byte) (s1 s2 : State) (a : Nat)
    (ha : s1.pc = a) (hal : a ≤ program.length)
    (h40 : tok ≠ 40) (h91 : tok ≠ 91) (h123 : tok ≠ 123) (h93 : tok ≠ 93) (h125 : tok ≠ 125)
    (h : compileToken program tok s1 = some s2) :
    ∃ m : Nat, s2.pc = m ∧ a ≤ m ∧ m ≤ program.length ∧ s2.stack = s1.stack ∧
      s2.jumps = s1.jumps := by
  unfold compileToken at h
  simp only [h40, h91, h123, h93, h125, if_false, false_or] at h
  split_ifs at h with g1 g2 g3 g4 g5 g6 g7 g8 g9
  · obtain ⟨name, m, hs, b1, b2⟩ := dataspaceLabel_some program s1 s2 a ha h
    exact ⟨m, by rw [hs]; rfl, b1, b2, by rw [hs]; rfl, by rw [hs]; rfl⟩
  · obtain ⟨name, m, hs, b1, b2⟩ := defineFunction_some program s1 s2 a ha h
    exact ⟨m, by rw [hs]; rfl, b1, b2, by rw [hs]; rfl, by rw [hs]; rfl⟩
  · obtain ⟨v, m, hs, b1, b2⟩ := literalByteCompile_some program s1 s2 a ha hal h
    exact ⟨m, by rw [hs], by omega, b2, by rw [hs], by rw [hs]⟩
  · obtain ⟨v, m, hs, b1, b2⟩ := literalWord_some program s1 s2 a ha hal h
    exact ⟨m, by rw [hs], by omega, b2, by rw [hs], by rw [hs]⟩
  · obtain ⟨v, m, hs, b1, b2⟩ := allocateSpace_some program s1 s2 a ha hal h
    exact ⟨m, by rw [hs], by omega, b2, by rw [hs], by rw [hs]⟩
  · simp only [Option.some.injEq] at h
    exact ⟨a, by rw [← h]; exact ha, le_refl _, hal, by rw [← h]; rfl, by rw [← h]; rfl⟩
  · cases he : eatByte program s1 with
    | none => simp [he] at h
    | some r =>
      obtain ⟨c, t⟩ := r
      simp only [he, Option.map_some', Option.some.injEq] at h
      obtain ⟨-, ht, hl⟩ := eatByte_some program s1 t c a ha he
      subst h
      exact ⟨a + 1, by rw [ht], by omega, by omega, by rw [ht], by rw [ht]⟩
  · obtain ⟨hs, b⟩ := skipLiteralByte_some program s1 s2 a ha h
    exact ⟨a + 2, by rw [hs], by omega, b, by rw [hs], by rw [hs]⟩
  · cases he : readNumber program s1 with
    | none => simp [he] at h
    | some r =>
      obtain ⟨v, t⟩ := r
      simp only [he, Option.map_some', Option.some.injEq] at h
      obtain ⟨m, ht, b1, b2⟩ := readNumber_some program s1 t v a ha he
      subst h
      exact ⟨m, by rw [ht], by omega, b2, by rw [ht], by rw [ht]⟩
  · simp only [Option.some.injEq] at h
    exact ⟨a, by rw [← h]; exact ha, le_refl _, hal, by rw [← h], by rw [← h]⟩

/-! ## The compile loop: one iteration -/

theorem compileToken_comment (program : List Byte) (s1 s2 : State) (a : Nat)
    (ha : s1.pc = a) (h : compileToken program 40 s1 = some s2) :
    ∃ e : Nat, s2 = { s1 with pc := (e : Int), jumps := ((a : Int), (e : Int)) :: s1.jumps } ∧
      a < e ∧ e ≤ program.length ∧ program[e - 1]? = some 41 ∧
      ∀ i, a ≤ i → i < e - 1 → program[i]? ≠ some 41 := by
  have h' : compileToken program 40 s1 = eatComment program s1 := by
    simp [compileToken]
  rw [h'] at h
  exact eatComment_some program s1 s2 a ha h

theorem compileToken_open (program : List Byte) (tok : Byte) (s1 : State)
    (ht : tok = 91 ∨ tok = 123) :
    compileToken program tok s1 = some { s1 with stack := wrap32 s1.pc :: s1.stack } := by
  rcases ht with h | h <;> subst h <;> simp [compileToken, startConditional]

theorem compileToken_endConditional (program : List Byte) (s1 : State) :
    compileToken program 93 s1 = endConditional s1 := by
  simp [compileToken]

theorem compileToken_endLoop (program : List Byte) (s1 : State) :
    compileToken program 125 s1 = endLoop s1 := by
  simp [compileToken]

theorem endConditional_some (s1 s2 : State) (h : endConditional s1 = some s2) :
    ∃ x rest, s1.stack = x :: rest ∧
      s2 = { s1 with stack := rest, jumps := (x, s1.pc) :: s1.jumps } := by
  cases hs : s1.stack with
  | nil => simp [endConditional, pop, hs] at h
  | cons x rest =>
    simp only [endConditional, pop, hs, Option.bind_eq_bind, Option.some_bind,
      Option.pure_def, Option.some.injEq] at h
    exact ⟨x, rest, rfl, h.symm⟩

theorem endLoop_some (s1 s2 : State) (h : endLoop s1 = some s2) :
    ∃ x rest, s1.stack = x :: rest ∧
      s2 = { s1 with stack := rest, jumps := (s1.pc, x) :: s1.jumps } := by
  cases hs : s1.stack with
  | nil => simp [endLoop, pop, hs] at h
  | cons x rest =>
    simp only [endLoop, pop, hs, Option.bind_eq_bind, Option.some_bind,
      Option.pure_def, Option.some.injEq] at h
    exact ⟨x, rest, rfl, h.symm⟩

/-- One iteration of the compile loop, taken apart: the token and the cursor `a`
that `getToken` leaves, the state `s2` the handler leaves, and the final
`advancePastWhitespace`, which moves only the cursor. -/
theorem compileStep_some (program : List Byte) (s s3 : State) (n : Nat) (hn : s.pc = n)
    (h : compileStep program s = some s3) :
    ∃ (tok : Byte) (a : Nat) (s2 : State),
      getToken program s = some (tok, { s with pc := (a : Int) }) ∧ n ≤ a ∧
      a ≤ program.length ∧ (¬ (isDigit tok = true ∨ tok = 39) → n < a) ∧
      compileToken program tok { s with pc := (a : Int) } = some s2 ∧
      advancePastWhitespace program s2 = some s3 := by
  simp only [compileStep, Option.bind_eq_bind] at h
  cases hg : getToken program s with
  | none => simp [hg] at h
  | some r =>
    obtain ⟨tok, s1⟩ := r
    simp only [hg, Option.some_bind] at h
    obtain ⟨i, a, hs1, h1, h2, h3, -, -, -, -, -, h4⟩ := getToken_some program s s1 tok n hn hg
    subst hs1
    cases hc : compileToken program tok { s with pc := (a : Int) } with
    | none => simp [hc] at h
    | some s2 =>
      simp only [hc, Option.some_bind] at h
      exact ⟨tok, a, s2, rfl, by omega, h3, fun hd => by have := (h4 hd).1; omega, hc, h⟩

/-- The effect of one iteration of the compile loop on the cursor, the data stack
and the jump map, by kind of token, on a source shorter than `2^31` bytes (where
a marker `int32(pc)` is the cursor itself). -/
theorem compileStep_effect (program : List Byte) (s s3 : State) (n : Nat)
    (hlen : program.length < 2147483648) (hn : s.pc = n)
    (h : compileStep program s = some s3) :
    ∃ (tok : Byte) (a m : Nat),
      getToken program s = some (tok, { s with pc := (a : Int) }) ∧ n ≤ a ∧ a ≤ m ∧
      m ≤ program.length ∧ s3.pc = m ∧
      ((tok = 40 ∧ n < a ∧ s3.stack = s.stack ∧ ∃ e : Nat,
          s3.jumps = ((a : Int), (e : Int)) :: s.jumps ∧ a < e ∧ e ≤ m ∧
          program[e - 1]? = some 41 ∧ ∀ i, a ≤ i → i < e - 1 → program[i]? ≠ some 41) ∨
       ((tok = 91 ∨ tok = 123) ∧ n < a ∧ s3.stack = (a : Int) :: s.stack ∧
          s3.jumps = s.jumps) ∨
       (tok = 93 ∧ n < a ∧ ∃ x rest, s.stack = x :: rest ∧ s3.stack = rest ∧
          s3.jumps = (x, (a : Int)) :: s.jumps) ∨
       (tok = 125 ∧ n < a ∧ ∃ x rest, s.stack = x :: rest ∧ s3.stack = rest ∧
          s3.jumps = ((a : Int), x) :: s.jumps) ∨
       (tok ≠ 40 ∧ tok ≠ 91 ∧ tok ≠ 123 ∧ tok ≠ 93 ∧ tok ≠ 125 ∧ s3.stack = s.stack ∧
          s3.jumps = s.jumps)) := by
  obtain ⟨tok, a, s2, hg, h1, h2, h3, hc, hadv⟩ := compileStep_some program s s3 n hn h
  by_cases t40 : tok = 40
  · subst t40
    obtain ⟨e, hs2, e1, e2, e3, e4⟩ := compileToken_comment program _ s2 a rfl hc
    obtain ⟨m, hs3, m1, m2⟩ :=
      advancePastWhitespace_some program s2 s3 e (by rw [hs2]) e2 hadv
    refine ⟨40, a, m, hg, h1, by omega, m2, by rw [hs3], Or.inl ⟨rfl, h3 (by decide), ?_,
      e, ?_, e1, m1, e3, e4⟩⟩
    · rw [hs3, hs2]
    · rw [hs3, hs2]
  by_cases topen : tok = 91 ∨ tok = 123
  · rw [compileToken_open program tok _ topen] at hc
    have hs2 := (Option.some.inj hc).symm
    obtain ⟨m, hs3, m1, m2⟩ :=
      advancePastWhitespace_some program s2 s3 a (by rw [hs2]) h2 hadv
    have hw : wrap32 (a : Int) = a := wrap32_of_range _ (by omega) (by omega)
    have hnd : ¬ (isDigit tok = true ∨ tok = 39) := by
      rcases topen with h | h <;> subst h <;> decide
    refine ⟨tok, a, m, hg, h1, m1, m2, by rw [hs3], Or.inr (Or.inl ⟨topen, h3 hnd, ?_, ?_⟩)⟩
    · rw [hs3, hs2]; simp only [hw]
    · rw [hs3, hs2]
  by_cases t93 : tok = 93
  · subst t93
    rw [compileToken_endConditional] at hc
    obtain ⟨x, rest, hst, hs2⟩ := endConditional_some _ s2 hc
    obtain ⟨m, hs3, m1, m2⟩ :=
      advancePastWhitespace_some program s2 s3 a (by rw [hs2]) h2 hadv
    refine ⟨93, a, m, hg, h1, m1, m2, by rw [hs3], Or.inr (Or.inr (Or.inl ⟨rfl,
      h3 (by decide), x, rest, hst, ?_, ?_⟩))⟩
    · rw [hs3, hs2]
    · rw [hs3, hs2]
  by_cases t125 : tok = 125
  · subst t125
    rw [compileToken_endLoop] at hc
    obtain ⟨x, rest, hst, hs2⟩ := endLoop_some _ s2 hc
    obtain ⟨m, hs3, m1, m2⟩ :=
      advancePastWhitespace_some program s2 s3 a (by rw [hs2]) h2 hadv
    refine ⟨125, a, m, hg, h1, m1, m2, by rw [hs3], Or.inr (Or.inr (Or.inr (Or.inl ⟨rfl,
      h3 (by decide), x, rest, hst, ?_, ?_⟩)))⟩
    · rw [hs3, hs2]
    · rw [hs3, hs2]
  · simp only [not_or] at topen
    obtain ⟨e, he, e1, e2, e3, e4⟩ :=
      compileToken_other program tok _ s2 a rfl h2 t40 topen.1 topen.2 t93 t125 hc
    obtain ⟨m, hs3, m1, m2⟩ :=
      advancePastWhitespace_some program s2 s3 e he e2 hadv
    refine ⟨tok, a, m, hg, h1, by omega, m2, by rw [hs3], Or.inr (Or.inr (Or.inr (Or.inr
      ⟨t40, topen.1, topen.2, t93, t125, ?_, ?_⟩)))⟩
    · rw [hs3]; exact e3
    · rw [hs3]; exact e4

/-- The compile loop keeps its invariant. -/
theorem compileStep_inv (program : List Byte) (s s3 : State)
    (hlen : program.length < 2147483648) (hinv : CompileInv program s)
    (h : compileStep program s = some s3) : CompileInv program s3 := by
  obtain ⟨n, hn, hnl, hpw, hb⟩ := hinv
  obtain ⟨tok, a, m, -, h1, h2, h3, hpc, hcase⟩ :=
    compileStep_effect program s s3 n hlen hn h
  refine ⟨m, hpc, h3, ?_, ?_⟩
  · rcases hcase with ⟨-, -, hs, -⟩ | ⟨-, hna, hs, -⟩ | ⟨-, -, x, rest, hst, hs, -⟩ |
      ⟨-, -, x, rest, hst, hs, -⟩ | ⟨-, -, -, -, -, hs, -⟩
    · rw [hs]; exact hpw
    · rw [hs]
      refine List.Pairwise.cons ?_ hpw
      intro y hy
      have := (hb y hy).2
      omega
    · rw [hs]; rw [hst] at hpw; exact (List.pairwise_cons.1 hpw).2
    · rw [hs]; rw [hst] at hpw; exact (List.pairwise_cons.1 hpw).2
    · rw [hs]; exact hpw
  · intro y hy
    rcases hcase with ⟨-, -, hs, -⟩ | ⟨-, hna, hs, -⟩ | ⟨-, -, x, rest, hst, hs, -⟩ |
      ⟨-, -, x, rest, hst, hs, -⟩ | ⟨-, -, -, -, -, hs, -⟩
    · rw [hs] at hy
      have := hb y hy
      omega
    · rw [hs] at hy
      rcases List.mem_cons.1 hy with hy | hy
      · subst hy; omega
      · have := hb y hy
        omega
    · rw [hs] at hy
      have := hb y (by rw [hst]; exact List.mem_cons_of_mem _ hy)
      omega
    · rw [hs] at hy
      have := hb y (by rw [hst]; exact List.mem_cons_of_mem _ hy)
      omega
    · rw [hs] at hy
      have := hb y hy
      omega

theorem jumpsGet_cons_ne (j : List (Int × Int)) (k k1 v : Int) (h : k ≠ k1) :
    jumpsGet ((k1, v) :: j) k = jumpsGet j k ∧ jumpsHas ((k1, v) :: j) k = jumpsHas j k := by
  simp [jumpsGet, jumpsHas, h]

theorem jumpsGet_cons_self (j : List (Int × Int)) (k v : Int) :
    jumpsGet ((k, v) :: j) k = v ∧ jumpsHas ((k, v) :: j) k = true := by
  simp [jumpsGet, jumpsHas]

/-- An entry of the jump map whose key is a cursor value already passed, and not
the marker of a block still open, is not touched by an iteration of the
compile loop. -/
theorem compileStep_jumps (program : List Byte) (s s3 : State)
    (hlen : program.length < 2147483648) (hinv : CompileInv program s)
    (h : compileStep program s = some s3) (k : Int) (hk : k ≤ s.pc) (hks : k ∉ s.stack) :
    jumpsGet s3.jumps k = jumpsGet s.jumps k ∧ jumpsHas s3.jumps k = jumpsHas s.jumps k ∧
      k ≤ s3.pc ∧ k ∉ s3.stack := by
  obtain ⟨n, hn, hnl, hpw, hb⟩ := hinv
  obtain ⟨tok, a, m, -, h1, h2, h3, hpc, hcase⟩ :=
    compileStep_effect program s s3 n hlen hn h
  have hkm : k ≤ s3.pc := by rw [hpc]; omega
  rcases hcase with ⟨-, hna, hs, e, hj, -⟩ | ⟨-, hna, hs, hj⟩ |
    ⟨-, -, x, rest, hst, hs, hj⟩ | ⟨-, hna, x, rest, hst, hs, hj⟩ | ⟨-, -, -, -, -, hs, hj⟩
  · have hne : k ≠ (a : Int) := by omega
    rw [hj, hs]
    exact ⟨(jumpsGet_cons_ne _ _ _ _ hne).1, (jumpsGet_cons_ne _ _ _ _ hne).2, hkm, hks⟩
  · rw [hj, hs]
    refine ⟨rfl, rfl, hkm, ?_⟩
    intro hmem
    rcases List.mem_cons.1 hmem with hmem | hmem
    · omega
    · exact hks hmem
  · have hne : k ≠ x := by
      intro hkx
      apply hks
      rw [hst, hkx]
      exact List.mem_cons_self _ _
    rw [hj, hs]
    refine ⟨(jumpsGet_cons_ne _ _ _ _ hne).1, (jumpsGet_cons_ne _ _ _ _ hne).2, hkm, ?_⟩
    intro hmem
    exact hks (by rw [hst]; exact List.mem_cons_of_mem _ hmem)
  · have hne : k ≠ (a : Int) := by omega
    rw [hj, hs]
    refine ⟨(jumpsGet_cons_ne _ _ _ _ hne).1, (jumpsGet_cons_ne _ _ _ _ hne).2, hkm, ?_⟩
    intro hmem
    exact hks (by rw [hst]; exact List.mem_cons_of_mem _ hmem)
  · rw [hj, hs]
    exact ⟨rfl, rfl, hkm, hks⟩

/-! ## The compile loop as a whole -/

theorem compileInv_init (program : List Byte) (input : List Byte) :
    CompileInv program (State.init input) :=
  ⟨0, rfl, Nat.zero_le _, List.Pairwise.nil, fun x hx => absurd hx (List.not_mem_nil x)⟩

/-- A completed loop that is entered with the cursor inside the source runs one
iteration and completes from the state that iteration leaves. -/
theorem compileLoop_step (program : List Byte) (fuel : Nat) (s sf : State)
    (hl : compileLoop program fuel s = some sf) (hpc : s.pc < program.length) :
    ∃ f s3, fuel = f + 1 ∧ compileStep program s = some s3 ∧
      compileLoop program f s3 = some sf := by
  cases fuel with
  | zero => simp [compileLoop, hpc] at hl
  | succ f =>
    simp only [compileLoop, hpc, if_true] at hl
    cases hs : compileStep program s with
    | none => simp [hs] at hl
    | some s3 =>
      simp only [hs, Option.some_bind] at hl
      exact ⟨f, s3, rfl, rfl, hl⟩

theorem compileLoop_of_iter (program : List Byte) (sf : State) :
    ∀ (j fuel : Nat) (s0 s : State), compileLoop program fuel s0 = some sf →
      compileIter program j s0 = some s → ∃ f, compileLoop program f s = some sf := by
  intro j
  induction j with
  | zero =>
    intro fuel s0 s hl hi
    simp only [compileIter, Option.some.injEq] at hi
    subst hi
    exact ⟨fuel, hl⟩
  | succ j ih =>
    intro fuel s0 s hl hi
    by_cases hpc : s0.pc < program.length
    · obtain ⟨f, s3, -, hs, hl3⟩ := compileLoop_step program fuel s0 sf hl hpc
      simp only [compileIter, hpc, if_true, hs, Option.some_bind] at hi
      exact ih f s3 s hl3 hi
    · simp [compileIter, hpc] at hi

theorem compileIter_inv (program : List Byte) (hlen : program.length < 2147483648) :
    ∀ (j : Nat) (s0 s : State), CompileInv program s0 →
      compileIter program j s0 = some s → CompileInv program s := by
  intro j
  induction j with
  | zero =>
    intro s0 s hinv hi
    simp only [compileIter, Option.some.injEq] at hi
    subst hi
    exact hinv
  | succ j ih =>
    intro s0 s hinv hi
    by_cases hpc : s0.pc < program.length
    · simp only [compileIter, hpc, if_true] at hi
      cases hs : compileStep program s0 with
      | none => simp [hs] at hi
      | some s3 =>
        simp only [hs, Option.some_bind] at hi
        exact ih s3 s (compileStep_inv program s0 s3 hlen hinv hs) hi
    · simp [compileIter, hpc] at hi

/-- An entry whose key is a cursor value already passed, and not the marker of a
block still open, is the same at the end of the compile phase. -/
theorem compileLoop_jumps (program : List Byte) (hlen : program.length < 2147483648)
    (sf : State) (k : Int) :
    ∀ (fuel : Nat) (s : State), CompileInv program s → compileLoop program fuel s = some sf →
      k ≤ s.pc → k ∉ s.stack →
      jumpsGet sf.jumps k = jumpsGet s.jumps k ∧ jumpsHas sf.jumps k = jumpsHas s.jumps k := by
  intro fuel
  induction fuel with
  | zero =>
    intro s _ hl _ _
    by_cases hpc : s.pc < program.length
    · simp [compileLoop, hpc] at hl
    · simp only [compileLoop, hpc, if_false, Option.some.injEq] at hl
      subst hl
      exact ⟨rfl, rfl⟩
  | succ f ih =>
    intro s hinv hl hk hks
    by_cases hpc : s.pc < program.length
    · obtain ⟨f', s3, hf, hs, hl3⟩ := compileLoop_step program (f + 1) s sf hl hpc
      have hf' : f' = f := by omega
      subst hf'
      obtain ⟨g1, g2, g3, g4⟩ := compileStep_jumps program s s3 hlen hinv hs k hk hks
      obtain ⟨i1, i2⟩ := ih s3 (compileStep_inv program s s3 hlen hinv hs) hl3 g3 g4
      exact ⟨by rw [i1, g1], by rw [i2, g2]⟩
    · simp only [compileLoop, hpc, if_false, Option.some.injEq] at hl
      subst hl
      exact ⟨rfl, rfl⟩

/-- C7 (amended): on a source shorter than `2^31` bytes that compiles to
completion, the jump-map entry recorded for a comment (an iteration of the
compile loop whose token is `(`) has as key `k` the cursor `getToken` leaves,
just past the word that begins with the `(`, so that `source[k]` is a whitespace
byte; the entry is still there at the end of the compile phase, and its value
`e` is the offset just after the first `)` at or after `k`:
`source[e - 1] = ')'`. -/
theorem comment_jump_entry (program input : List Byte) (sf s s1 : State) (j : Nat)
    (hlen : program.length < 2147483648) (hc : compile program input = some sf)
    (hj : compileIter program j (State.init input) = some s)
    (hpc : s.pc < program.length) (ht : getToken program s = some (40, s1)) :
    ∃ k e : Nat, s1.pc = k ∧ jumpsHas sf.jumps k = true ∧ jumpsGet sf.jumps k = e ∧
      k < e ∧ e ≤ program.length ∧ program[e - 1]? = some 41 ∧
      (∀ i, k ≤ i → i < e - 1 → program[i]? ≠ some 41) ∧
      (∃ w, program[k]? = some w ∧ isWhitespace w = true) ∧ program[k]? ≠ some 40 := by
  have hinv := compileIter_inv program hlen j _ s (compileInv_init program input) hj
  obtain ⟨f0, hl0⟩ := compileLoop_of_iter program sf j _ _ s hc hj
  obtain ⟨f, s3, -, hs, hl3⟩ := compileLoop_step program f0 s sf hl0 hpc
  obtain ⟨n, hn, hnl, hpw, hb⟩ := hinv
  obtain ⟨tok, a, m, hg, h1, h2, h3, hm, hcase⟩ :=
    compileStep_effect program s s3 n hlen hn hs
  rw [ht] at hg
  simp only [Option.some.injEq, Prod.mk.injEq] at hg
  obtain ⟨htok, hs1⟩ := hg
  subst htok
  rcases hcase with ⟨-, hna, hst, e, hjmp, e1, e2, e3, e4⟩ | ⟨hh, -⟩ | ⟨hh, -⟩ | ⟨hh, -⟩ |
    ⟨hh, -⟩
  · have hks : (a : Int) ∉ s3.stack := by
      rw [hst]
      intro hmem
      have := (hb _ hmem).2
      omega
    obtain ⟨p1, p2⟩ := compileLoop_jumps program hlen sf a f s3
      (compileStep_inv program s s3 hlen ⟨n, hn, hnl, hpw, hb⟩ hs) hl3 (by rw [hm]; omega) hks
    obtain ⟨i, a', hs1', -, -, -, -, -, -, -, -, hw⟩ := getToken_some program s s1 40 n hn ht
    have haa : a' = a := by
      have : ((a' : Nat) : Int) = a := by
        have h5 : s1.pc = (a' : Int) := by rw [hs1']
        have h6 : s1.pc = (a : Int) := by rw [hs1]
        omega
      omega
    subst haa
    have hwk := (hw (by decide)).2.2
    have hal : a' < program.length := by omega
    have hca : program[a']? = some program[a'] := List.getElem?_eq_getElem hal
    have hws := hwk _ hca
    refine ⟨a', e, by rw [hs1], ?_, ?_, e1, by omega, e3, e4, ⟨_, hca, hws⟩, ?_⟩
    · rw [p2, hjmp]; exact (jumpsGet_cons_self _ _ _).2
    · rw [p1, hjmp]; exact (jumpsGet_cons_self _ _ _).1
    · intro hcon
      rw [hca] at hcon
      have h40 := Option.some.inj hcon
      rw [h40] at hws
      exact absurd hws (by decide)
  · rcases hh with hh | hh <;> exact absurd hh (by decide)
  · exact absurd hh (by decide)
  · exact absurd hh (by decide)
  · exact absurd rfl hh

/-- Witness of `comment_jump_entry`: the source `( a )`, whose only entry is
`1 ↦ 5`. -/
theorem comment_jump_entry_witness :
    ∃ k e : Nat, ({ State.init [] with pc := 1 } : State).pc = k ∧
      jumpsHas ({ State.init [] with pc := 5, jumps := [(1, 5)] } : State).jumps k = true ∧
      jumpsGet ({ State.init [] with pc := 5, jumps := [(1, 5)] } : State).jumps k = e ∧
      k < e ∧ e ≤ (src "( a )").length ∧ (src "( a )")[e - 1]? = some 41 ∧
      (∀ i, k ≤ i → i < e - 1 → (src "( a )")[i]? ≠ some 41) ∧
      (∃ w, (src "( a )")[k]? = some w ∧ isWhitespace w = true) ∧
      (src "( a )")[k]? ≠ some 40 :=
  comment_jump_entry (src "( a )") [] { State.init [] with pc := 5, jumps := [(1, 5)] }
    (State.init []) { State.init [] with pc := 1 } 0 (by decide) (by decide) (by decide)
    (by decide) (by decide)

/-- C7 as stated fails: the source `( a )` compiles to completion with the single
jump-map entry `1 ↦ 5`, recorded for its comment, and `source[1]` is the space
after the `(`, not the `(` at offset `0`. -/
theorem comment_jump_key_counterexample :
    compile (src "( a )") [] = some { State.init [] with pc := 5, jumps := [(1, 5)] } ∧
    (src "( a )")[0]? = some 40 ∧ (src "( a )")[1]? = some 32 ∧
    (src "( a )")[1]? ≠ some 40 ∧ (src "( a )")[5 - 1]? = some 41 := by
  decide

/-! ## Blocks -/

/-- The head of the trace of a completed loop is the token of its first iteration,
with the cursor `getToken` left, and the tail is the trace of the rest of the
loop. -/
theorem compileTrace_cons (program : List Byte) (fuel : Nat) (s sf : State) (tok : Byte)
    (a : Int) (rest : List (Byte × Int)) (hl : compileLoop program fuel s = some sf)
    (ht : compileTrace program fuel s = (tok, a) :: rest) :
    ∃ f s1 s3, fuel = f + 1 ∧ getToken program s = some (tok, s1) ∧ s1.pc = a ∧
      compileStep program s = some s3 ∧ compileLoop program f s3 = some sf ∧
      compileTrace program f s3 = rest := by
  cases fuel with
  | zero => simp [compileTrace] at ht
  | succ f =>
    by_cases hpc : s.pc < program.length
    · obtain ⟨f', s3, hf, hs, hl3⟩ := compileLoop_step program (f + 1) s sf hl hpc
      have hf' : f' = f := by omega
      subst hf'
      simp only [compileTrace, hpc, if_true] at ht
      cases hg : getToken program s with
      | none => simp [hg] at ht
      | some r =>
        obtain ⟨tok', s1⟩ := r
        have hs' : (compileToken program tok' s1).bind (advancePastWhitespace program)
            = some s3 := by
          simpa [compileStep, hg] using hs
        simp only [hg, hs', List.cons.injEq, Prod.mk.injEq] at ht
        obtain ⟨⟨h1, h2⟩, h3⟩ := ht
        subst h1
        exact ⟨f', s1, s3, rfl, rfl, h2, hs, hl3, h3⟩
    · simp [compileTrace, hpc] at ht

/-- Walking a prefix of the trace: the loop reaches a state from which the rest of
the trace is produced. -/
theorem compileTrace_prefix (program : List Byte) (hlen : program.length < 2147483648)
    (sf : State) (rest : List (Byte × Int)) :
    ∀ (pre : List (Byte × Int)) (fuel : Nat) (s : State), CompileInv program s →
      compileLoop program fuel s = some sf → compileTrace program fuel s = pre ++ rest →
      ∃ f t, CompileInv program t ∧ compileLoop program f t = some sf ∧
        compileTrace program f t = rest := by
  intro pre
  induction pre with
  | nil =>
    intro fuel s hinv hl ht
    exact ⟨fuel, s, hinv, hl, ht⟩
  | cons p pre ih =>
    intro fuel s hinv hl ht
    obtain ⟨tok, a⟩ := p
    obtain ⟨f, s1, s3, -, -, -, hs, hl3, ht3⟩ :=
      compileTrace_cons program fuel s sf tok a (pre ++ rest) hl ht
    exact ih f s3 (compileStep_inv program s s3 hlen hinv hs) hl3 ht3

/-- The first token of the trace, seen as a step of the loop. -/
theorem compileTrace_head (program : List Byte) (hlen : program.length < 2147483648)
    (fuel : Nat) (s sf : State) (tok : Byte) (a : Int) (rest : List (Byte × Int))
    (hinv : CompileInv program s) (hl : compileLoop program fuel s = some sf)
    (ht : compileTrace program fuel s = (tok, a) :: rest) :
    ∃ (f : Nat) (s3 : State) (n a' m : Nat), s.pc = n ∧ a = a' ∧ n ≤ a' ∧ a' ≤ m ∧
      s3.pc = m ∧ CompileInv program s3 ∧ compileLoop program f s3 = some sf ∧
      compileTrace program f s3 = rest ∧
      ((tok = 40 ∧ s3.stack = s.stack) ∨
       ((tok = 91 ∨ tok = 123) ∧ n < a' ∧ s3.stack = (a' : Int) :: s.stack ∧
          s3.jumps = s.jumps) ∨
       (tok = 93 ∧ n < a' ∧ ∃ x r, s.stack = x :: r ∧ s3.stack = r ∧
          s3.jumps = (x, (a' : Int)) :: s.jumps) ∨
       (tok = 125 ∧ n < a' ∧ ∃ x r, s.stack = x :: r ∧ s3.stack = r ∧
          s3.jumps = ((a' : Int), x) :: s.jumps) ∨
       (tok ≠ 40 ∧ tok ≠ 91 ∧ tok ≠ 123 ∧ tok ≠ 93 ∧ tok ≠ 125 ∧ s3.stack = s.stack)) := by
  obtain ⟨f, s1, s3, -, hg, ha, hs, hl3, ht3⟩ :=
    compileTrace_cons program fuel s sf tok a rest hl ht
  have hinv3 := compileStep_inv program s s3 hlen hinv hs
  obtain ⟨n, hn, -, -, -⟩ := hinv
  obtain ⟨tok', a', m, hg', h1, h2, h3, hm, hcase⟩ :=
    compileStep_effect program s s3 n hlen hn hs
  rw [hg] at hg'
  simp only [Option.some.injEq, Prod.mk.injEq] at hg'
  obtain ⟨htok, hs1⟩ := hg'
  subst htok
  have haa : a = a' := by rw [← ha, hs1]
  refine ⟨f, s3, n, a', m, hn, haa, h1, h2, hm, hinv3, hl3, ht3, ?_⟩
  rcases hcase with ⟨c1, -, c2, -⟩ | ⟨c1, c2, c3, c4⟩ | ⟨c1, c2, c3⟩ | ⟨c1, c2, c3⟩ |
    ⟨c1, c2, c3, c4, c5, c6, -⟩
  · exact Or.inl ⟨c1, c2⟩
  · exact Or.inr (Or.inl ⟨c1, c2, c3, c4⟩)
  · exact Or.inr (Or.inr (Or.inl ⟨c1, c2, c3⟩))
  · exact Or.inr (Or.inr (Or.inr (Or.inl ⟨c1, c2, c3⟩)))
  · exact Or.inr (Or.inr (Or.inr (Or.inr ⟨c1, c2, c3, c4, c5, c6⟩)))

theorem balancedFrom_open (d : Nat) (t : Byte) (ts : List Byte) (h : t = 91 ∨ t = 123) :
    balancedFrom d (t :: ts) = balancedFrom (d + 1) ts := by
  simp [balancedFrom, h]

theorem balancedFrom_close (d : Nat) (t : Byte) (ts : List Byte) (h : t = 93 ∨ t = 125) :
    balancedFrom d (t :: ts) = (d != 0 && balancedFrom (d - 1) ts) := by
  rcases h with h | h <;> subst h <;> simp [balancedFrom]

theorem balancedFrom_other (d : Nat) (t : Byte) (ts : List Byte) (h1 : t ≠ 91)
    (h2 : t ≠ 123) (h3 : t ≠ 93) (h4 : t ≠ 125) :
    balancedFrom d (t :: ts) = balancedFrom d ts := by
  simp [balancedFrom, h1, h2, h3, h4]

/-- A well-nested stretch of tokens, entered at depth `d` with the markers `ms` of
the `d` enclosing blocks it closes on top of the stack, leaves the stack beneath
them as it found it. -/
theorem compileTrace_balanced (program : List Byte) (hlen : program.length < 2147483648)
    (sf : State) (rest : List (Byte × Int)) (base : List Int) :
    ∀ (body : List (Byte × Int)) (d : Nat) (ms : List Int) (fuel : Nat) (t : State),
      balancedFrom d (body.map Prod.fst) = true → CompileInv program t →
      t.stack = ms ++ base → ms.length = d → compileLoop program fuel t = some sf →
      compileTrace program fuel t = body ++ rest →
      ∃ f t', CompileInv program t' ∧ t'.stack = base ∧ t.pc ≤ t'.pc ∧
        compileLoop program f t' = some sf ∧ compileTrace program f t' = rest := by
  intro body
  induction body with
  | nil =>
    intro d ms fuel t hb hinv hst hd hl ht
    simp only [List.map_nil, balancedFrom, beq_iff_eq] at hb
    have hms : ms = [] := List.length_eq_zero.1 (by omega)
    subst hms
    exact ⟨fuel, t, hinv, by simpa using hst, le_refl _, hl, ht⟩
  | cons p body ih =>
    intro d ms fuel t hb hinv hst hd hl ht
    obtain ⟨tok, a⟩ := p
    obtain ⟨f, s3, n, a', m, hn, -, h1, h2, hm, hinv3, hl3, ht3, hcase⟩ :=
      compileTrace_head program hlen fuel t sf tok a (body ++ rest) hinv hl ht
    have hpc : t.pc ≤ s3.pc := by rw [hn, hm]; omega
    simp only [List.map_cons] at hb
    rcases hcase with ⟨c1, c2⟩ | ⟨c1, -, c3, -⟩ | ⟨c1, -, x, r, c3, c4, -⟩ |
      ⟨c1, -, x, r, c3, c4, -⟩ | ⟨c1, c2, c3, c4, c5, c6⟩
    · subst c1
      rw [balancedFrom_other d 40 _ (by decide) (by decide) (by decide) (by decide)] at hb
      obtain ⟨f', t', g1, g2, g3, g4, g5⟩ :=
        ih d ms f s3 hb hinv3 (by rw [c2, hst]) hd hl3 ht3
      exact ⟨f', t', g1, g2, le_trans hpc g3, g4, g5⟩
    · rw [balancedFrom_open d tok _ c1] at hb
      obtain ⟨f', t', g1, g2, g3, g4, g5⟩ :=
        ih (d + 1) ((a' : Int) :: ms) f s3 hb hinv3 (by rw [c3, hst]; rfl)
          (by simp [hd]) hl3 ht3
      exact ⟨f', t', g1, g2, le_trans hpc g3, g4, g5⟩
    · subst c1
      rw [balancedFrom_close d 93 _ (Or.inl rfl)] at hb
      simp only [Bool.and_eq_true, bne_iff_ne, ne_eq] at hb
      cases ms with
      | nil => exact absurd hd.symm hb.1
      | cons y ms' =>
        have hr : r = ms' ++ base := by
          rw [hst] at c3
          simp only [List.cons_append, List.cons.injEq] at c3
          exact c3.2.symm
        obtain ⟨f', t', g1, g2, g3, g4, g5⟩ :=
          ih (d - 1) ms' f s3 hb.2 hinv3 (by rw [c4, hr])
            (by simp only [List.length_cons] at hd; omega) hl3 ht3
        exact ⟨f', t', g1, g2, le_trans hpc g3, g4, g5⟩
    · subst c1
      rw [balancedFrom_close d 125 _ (Or.inr rfl)] at hb
      simp only [Bool.and_eq_true, bne_iff_ne, ne_eq] at hb
      cases ms with
      | nil => exact absurd hd.symm hb.1
      | cons y ms' =>
        have hr : r = ms' ++ base := by
          rw [hst] at c3
          simp only [List.cons_append, List.cons.injEq] at c3
          exact c3.2.symm
        obtain ⟨f', t', g1, g2, g3, g4, g5⟩ :=
          ih (d - 1) ms' f s3 hb.2 hinv3 (by rw [c4, hr])
            (by simp only [List.length_cons] at hd; omega) hl3 ht3
        exact ⟨f', t', g1, g2, le_trans hpc g3, g4, g5⟩
    · rw [balancedFrom_other d tok _ c2 c3 c4 c5] at hb
      obtain ⟨f', t', g1, g2, g3, g4, g5⟩ :=
        ih d ms f s3 hb hinv3 (by rw [c6, hst]) hd hl3 ht3
      exact ⟨f', t', g1, g2, le_trans hpc g3, g4, g5⟩

/-- C8 (amended): on a source shorter than `2^31` bytes that compiles to
completion, for each `[ ... ]` block whose body is well nested (in the sequence
of tokens the compile loop dispatches: a `[` token with cursor `a` just past it,
a well-nested body, a `]` token with cursor `b` just past it), the jump map at
the end of the compile phase maps the marker `a` recorded for the `[` to `b`,
the cursor just past the word that begins with the matching `]`. -/
theorem conditional_jump_entry (program input : List Byte) (sf : State)
    (pre body post : List (Byte × Int)) (a b : Int)
    (hlen : program.length < 2147483648) (hc : compile program input = some sf)
    (ht : compileTrace program program.length (State.init input)
      = pre ++ (91, a) :: (body ++ (93, b) :: post))
    (hb : balancedFrom 0 (body.map Prod.fst) = true) :
    jumpsHas sf.jumps a = true ∧ jumpsGet sf.jumps a = b := by
  obtain ⟨f, t, hinv, hl, htr⟩ := compileTrace_prefix program hlen sf _ pre _ _
    (compileInv_init program input) hc ht
  obtain ⟨f1, s3, n, a', m, hn, haa, h1, h2, hm, hinv3, hl3, ht3, hcase⟩ :=
    compileTrace_head program hlen f t sf 91 a _ hinv hl htr
  rcases hcase with ⟨c1, -⟩ | ⟨-, hna, hst3, -⟩ | ⟨c1, -⟩ | ⟨c1, -⟩ | ⟨-, c2, -⟩
  · exact absurd c1 (by decide)
  · obtain ⟨f2, t', hinv', hst', hpc', hl', ht'⟩ :=
      compileTrace_balanced program hlen sf _ ((a' : Int) :: t.stack) body 0 [] f1 s3 hb
        hinv3 (by rw [hst3]; rfl) rfl hl3 ht3
    obtain ⟨f3, s4, n', b', m', hn', hbb, g1, g2, hm', hinv4, hl4, -, hcase'⟩ :=
      compileTrace_head program hlen f2 t' sf 93 b _ hinv' hl' ht'
    rcases hcase' with ⟨c1, -⟩ | ⟨c1, -⟩ | ⟨-, -, x, r, e1, e2, e3⟩ | ⟨c1, -⟩ | ⟨-, -, -, c2, -⟩
    · exact absurd c1 (by decide)
    · rcases c1 with c1 | c1 <;> exact absurd c1 (by decide)
    · rw [hst'] at e1
      simp only [List.cons.injEq] at e1
      obtain ⟨ex, er⟩ := e1
      have hnotin : (a' : Int) ∉ s4.stack := by
        rw [e2, ← er]
        intro hmem
        obtain ⟨-, -, -, hpw, -⟩ := hinv3
        rw [hst3] at hpw
        have := (List.pairwise_cons.1 hpw).1 _ hmem
        omega
      have hle : (a' : Int) ≤ s4.pc := by
        rw [hm'] ; rw [hm] at hpc' ; rw [hn'] at hpc' ; omega
      obtain ⟨p1, p2⟩ := compileLoop_jumps program hlen sf a' f3 s4 hinv4 hl4 hle hnotin
      rw [haa, hbb]
      refine ⟨?_, ?_⟩
      · rw [p2, e3, ← ex]; exact (jumpsGet_cons_self _ _ _).2
      · rw [p1, e3, ← ex]; exact (jumpsGet_cons_self _ _ _).1
    · exact absurd c1 (by decide)
    · exact absurd rfl c2
  · exact absurd c1 (by decide)
  · exact absurd c1 (by decide)
  · exact absurd rfl c2

/-- Witness of `conditional_jump_entry`: in `x [ y { z } ]w Q` the `[` has marker
`3` and its `]` word ends at `14`. -/
theorem conditional_jump_entry_witness :
    jumpsHas ({ State.init [] with pc := 16, jumps := [(3, 14), (11, 7)] } : State).jumps 3
      = true ∧
    jumpsGet ({ State.init [] with pc := 16, jumps := [(3, 14), (11, 7)] } : State).jumps 3
      = 14 :=
  conditional_jump_entry (src "x [ y \x7b z \x7d ]w Q") []
    { State.init [] with pc := 16, jumps := [(3, 14), (11, 7)] }
    [(120, 1)] [(121, 5), (123, 7), (122, 9), (125, 11)] [(81, 16)] 3 14
    (by decide) (by decide) (by decide) (by decide)

/-- C8 as stated fails: in `[ ]x` the `]` is at offset `2`, so the byte immediately
after it is at offset `3`, but the entry for the marker `1` of the `[` is `4`,
the end of the word `]x`. -/
theorem conditional_jump_counterexample :
    compile (src "[ ]x") [] = some { State.init [] with pc := 4, jumps := [(1, 4)] } ∧
    compileTrace (src "[ ]x") (src "[ ]x").length (State.init []) = [(91, 1), (93, 4)] ∧
    (src "[ ]x")[2]? = some 93 ∧
    jumpsGet ({ State.init [] with pc := 4, jumps := [(1, 4)] } : State).jumps 1 ≠ 2 + 1 := by
  decide

/-- C9 (amended): on a source shorter than `2^31` bytes that compiles to
completion, for each `{ ... }` block whose body is well nested (a `{` token with
cursor `a` just past it, a well-nested body, a `}` token with cursor `b` just
past it), the jump map at the end of the compile phase maps the key `b` of the
`}` to `a`, the cursor just past the word that begins with the matching `{`. -/
theorem loop_jump_entry (program input : List Byte) (sf : State)
    (pre body post : List (Byte × Int)) (a b : Int)
    (hlen : program.length < 2147483648) (hc : compile program input = some sf)
    (ht : compileTrace program program.length (State.init input)
      = pre ++ (123, a) :: (body ++ (125, b) :: post))
    (hb : balancedFrom 0 (body.map Prod.fst) = true) :
    jumpsHas sf.jumps b = true ∧ jumpsGet sf.jumps b = a := by
  obtain ⟨f, t, hinv, hl, htr⟩ := compileTrace_prefix program hlen sf _ pre _ _
    (compileInv_init program input) hc ht
  obtain ⟨f1, s3, n, a', m, hn, haa, h1, h2, hm, hinv3, hl3, ht3, hcase⟩ :=
    compileTrace_head program hlen f t sf 123 a _ hinv hl htr
  rcases hcase with ⟨c1, -⟩ | ⟨-, hna, hst3, -⟩ | ⟨c1, -⟩ | ⟨c1, -⟩ | ⟨-, -, c2, -⟩
  · exact absurd c1 (by decide)
  · obtain ⟨f2, t', hinv', hst', hpc', hl', ht'⟩ :=
      compileTrace_balanced program hlen sf _ ((a' : Int) :: t.stack) body 0 [] f1 s3 hb
        hinv3 (by rw [hst3]; rfl) rfl hl3 ht3
    obtain ⟨f3, s4, n', b', m', hn', hbb, g1, g2, hm', hinv4, hl4, -, hcase'⟩ :=
      compileTrace_head program hlen f2 t' sf 125 b _ hinv' hl' ht'
    rcases hcase' with ⟨c1, -⟩ | ⟨c1, -⟩ | ⟨c1, -⟩ | ⟨-, hnb, x, r, e1, e2, e3⟩ |
      ⟨-, -, -, -, c2, -⟩
    · exact absurd c1 (by decide)
    · rcases c1 with c1 | c1 <;> exact absurd c1 (by decide)
    · exact absurd c1 (by decide)
    · have hnotin : (b' : Int) ∉ s4.stack := by
        rw [e2]
        intro hmem
        obtain ⟨n2, hn2, -, -, hb2⟩ := hinv'
        have := (hb2 _ (by rw [e1]; exact List.mem_cons_of_mem _ hmem)).2
        omega
      have hle : (b' : Int) ≤ s4.pc := by
        rw [hm']; omega
      obtain ⟨p1, p2⟩ := compileLoop_jumps program hlen sf b' f3 s4 hinv4 hl4 hle hnotin
      rw [hst'] at e1
      simp only [List.cons.injEq] at e1
      obtain ⟨ex, -⟩ := e1
      rw [haa, hbb]
      refine ⟨?_, ?_⟩
      · rw [p2, e3]; exact (jumpsGet_cons_self _ _ _).2
      · rw [p1, e3, ← ex]; exact (jumpsGet_cons_self _ _ _).1
    · exact absurd rfl c2
  · exact absurd c1 (by decide)
  · exact absurd c1 (by decide)
  · exact absurd rfl c2

/-- Witness of `loop_jump_entry`: in `x [ y { z } ]w Q` the `{` has marker `7` and
the key of its `}` is `11`. -/
theorem loop_jump_entry_witness :
    jumpsHas ({ State.init [] with pc := 16, jumps := [(3, 14), (11, 7)] } : State).jumps 11
      = true ∧
    jumpsGet ({ State.init [] with pc := 16, jumps := [(3, 14), (11, 7)] } : State).jumps 11
      = 7 :=
  loop_jump_entry (src "x [ y \x7b z \x7d ]w Q") []
    { State.init [] with pc := 16, jumps := [(3, 14), (11, 7)] }
    [(120, 1), (91, 3), (121, 5)] [(122, 9)] [(93, 14), (81, 16)] 7 11
    (by decide) (by decide) (by decide) (by decide)

/-- C9 as stated fails: in `{x }` the `{` is at offset `0`, so the byte immediately
after it is at offset `1`, but the entry for the key `4` of the `}` is `2`, the
end of the word `{x`. -/
theorem loop_jump_counterexample :
    compile (src "\x7bx \x7d") [] = some { State.init [] with pc := 4, jumps := [(4, 2)] } ∧
    compileTrace (src "\x7bx \x7d") (src "\x7bx \x7d").length (State.init [])
      = [(123, 2), (125, 4)] ∧
    (src "\x7bx \x7d")[0]? = some 123 ∧
    jumpsGet ({ State.init [] with pc := 4, jumps := [(4, 2)] } : State).jumps 4 ≠ 0 + 1 := by
  decide

/-! ## The run phase: conditionals -/

/-- With a negative cursor `getToken` panics on `program[pc]`. -/
theorem getToken_neg (program : List Byte) (s : State) (h : s.pc < 0) :
    getToken program s = none := by
  have hf : (program.length - s.pc).toNat = ((program.length - s.pc).toNat - 1) + 1 := by
    omega
  have hlt : s.pc < (program.length : Int) := by omega
  have hcb : currentByte program s = none := by
    simp [currentByte, h]
  have ha : advancePastWhitespace program s = none := by
    unfold advancePastWhitespace
    rw [hf]
    simp only [advancePastWhitespaceLoop, hlt, if_true, hcb, Option.bind_eq_bind,
      Option.none_bind]
  simp only [getToken, ha, Option.bind_eq_bind, Option.none_bind]

theorem getToken_pcOnly (program : List Byte) (s s1 : State) (c : Byte)
    (h : getToken program s = some (c, s1)) :
    ∃ n p : Nat, s.pc = n ∧ s1 = { s with pc := (p : Int) } ∧ n ≤ p ∧ p ≤ program.length := by
  have h0 : 0 ≤ s.pc := by
    by_contra hneg
    rw [getToken_neg program s (by omega)] at h
    exact Option.noConfusion h
  obtain ⟨i, m, hs1, h1, h2, h3, -⟩ :=
    getToken_some program s s1 c s.pc.toNat (by omega) h
  exact ⟨s.pc.toNat, m, by omega, hs1, by omega, h3⟩

/-- C10: on a data stack `b :: rest` the run-phase `[` token pops exactly `b`; when
`b` is nonzero the cursor stays at `p`, where `getToken` left it just past the
`[` token, and when `b` is zero the cursor becomes `jumps[p]`.  At the same
cursor the compile phase pushes the marker `int32(p)`, which is `p` itself as
long as `p` fits an `int32`: the key `endConditional` records is the key looked
up here. -/
theorem conditional_spec (program : List Byte) (s s1 : State) (b : Int) (rest : List Int)
    (ht : getToken program s = some (91, s1)) (hst : s.stack = b :: rest) :
    ∃ p : Nat, s1 = { s with pc := (p : Int) } ∧
      (b ≠ 0 → runStep program s
        = some (Outcome.running { s with pc := (p : Int), stack := rest })) ∧
      (b = 0 → runStep program s
        = some (Outcome.running { s with pc := jumpsGet s.jumps p, stack := rest })) ∧
      compileToken program 91 s1 = some { s1 with stack := wrap32 p :: s.stack } ∧
      ((p : Int) < 2147483648 → wrap32 p = p) := by
  obtain ⟨n, p, -, hs1, -, -⟩ := getToken_pcOnly program s s1 91 ht
  subst hs1
  refine ⟨p, rfl, ?_, ?_, ?_, ?_⟩
  · intro hb
    simp [runStep, ht, runToken, conditional, pop, hst, hb]
  · intro hb
    simp [runStep, ht, runToken, conditional, pop, hst, hb, jump]
  · rw [compileToken_open program 91 _ (Or.inl rfl)]
  · intro hp
    exact wrap32_of_range _ (by omega) hp

/-- Witness of `conditional_spec`: `[ x ]` entered with `0` on the stack jumps to
`jumps[1] = 5`. -/
theorem conditional_spec_witness :
    ∃ p : Nat, ({ State.init [] with pc := 1, stack := [0, 8], jumps := [(1, 5)] } : State)
        = { ({ State.init [] with stack := [0, 8], jumps := [(1, 5)] } : State) with
            pc := (p : Int) } ∧
      ((0 : Int) ≠ 0 → runStep (src "[ x ]")
          { State.init [] with stack := [0, 8], jumps := [(1, 5)] }
        = some (Outcome.running
          { ({ State.init [] with stack := [0, 8], jumps := [(1, 5)] } : State) with
            pc := (p : Int), stack := [8] })) ∧
      ((0 : Int) = 0 → runStep (src "[ x ]")
          { State.init [] with stack := [0, 8], jumps := [(1, 5)] }
        = some (Outcome.running
          { ({ State.init [] with stack := [0, 8], jumps := [(1, 5)] } : State) with
            pc := jumpsGet
              ({ State.init [] with stack := [0, 8], jumps := [(1, 5)] } : State).jumps p,
            stack := [8] })) ∧
      compileToken (src "[ x ]") 91
          { State.init [] with pc := 1, stack := [0, 8], jumps := [(1, 5)] }
        = some { ({ State.init [] with pc := 1, stack := [0, 8], jumps := [(1, 5)] } : State)
            with stack := wrap32 p ::
              ({ State.init [] with stack := [0, 8], jumps := [(1, 5)] } : State).stack } ∧
      ((p : Int) < 2147483648 → wrap32 p = p) :=
  conditional_spec (src "[ x ]") { State.init [] with stack := [0, 8], jumps := [(1, 5)] }
    { State.init [] with pc := 1, stack := [0, 8], jumps := [(1, 5)] } 0 [8]
    (by decide) rfl

/-! ## The fuel of the compile loop is enough -/

set_option maxRecDepth 100000 in
theorem isDigit_ne (tok : Byte) (h : isDigit tok = true) :
    tok ≠ 40 ∧ tok ≠ 118 ∧ tok ≠ 58 ∧ tok ≠ 98 ∧ tok ≠ 35 ∧ tok ≠ 42 ∧ tok ≠ 94 ∧
      tok ≠ 91 ∧ tok ≠ 123 ∧ tok ≠ 93 ∧ tok ≠ 125 ∧ tok ≠ 32 ∧ tok ≠ 10 ∧ tok ≠ 39 := by
  revert tok; decide

/-- The handlers of the digit and apostrophe tokens, which `getToken` leaves at the
cursor, move the cursor forward themselves. -/
theorem compileToken_digit_or_quote (program : List Byte) (tok : Byte) (s1 s2 : State)
    (a : Nat) (ha : s1.pc = a) (hd : isDigit tok = true ∨ tok = 39)
    (h : compileToken program tok s1 = some s2) :
    ∃ m : Nat, s2.pc = m ∧ a < m ∧ m ≤ program.length := by
  rcases hd with hd | hd
  · obtain ⟨d1, d2, d3, d4, d5, d6, d7, d8, d9, d10, d11, d12, d13, d14⟩ := isDigit_ne tok hd
    simp only [compileToken, d1, d2, d3, d4, d5, d6, d7, d8, d9, d10, d11, d12, d13, d14,
      hd, if_false, if_true, or_self] at h
    cases he : readNumber program s1 with
    | none => simp [he] at h
    | some r =>
      obtain ⟨v, t⟩ := r
      simp only [he, Option.map_some', Option.some.injEq] at h
      obtain ⟨m, hm, b1, b2⟩ := readNumber_some program s1 t v a ha he
      subst h
      exact ⟨m, by rw [hm], b1, b2⟩
  · subst hd
    have h' : compileToken program 39 s1 = skipLiteralByte program s1 := by
      simp [compileToken]
    rw [h'] at h
    obtain ⟨hs, b⟩ := skipLiteralByte_some program s1 s2 a ha h
    exact ⟨a + 2, by rw [hs], by omega, b⟩

/-- Every iteration of the compile loop that completes moves the cursor strictly
forward and leaves it at most at the end of the source. -/
theorem compileStep_progress (program : List Byte) (s s3 : State) (n : Nat) (hn : s.pc = n)
    (h : compileStep program s = some s3) :
    ∃ m : Nat, s3.pc = m ∧ n < m ∧ m ≤ program.length := by
  obtain ⟨tok, a, s2, -, h1, h2, h3, hc, hadv⟩ := compileStep_some program s s3 n hn h
  have key : ∃ e : Nat, s2.pc = e ∧ n < e ∧ e ≤ program.length := by
    by_cases hd : isDigit tok = true ∨ tok = 39
    · obtain ⟨e, he, e1, e2⟩ := compileToken_digit_or_quote program tok _ s2 a rfl hd hc
      exact ⟨e, he, by omega, e2⟩
    · have hna := h3 hd
      by_cases t40 : tok = 40
      · subst t40
        obtain ⟨e, hs2, e1, e2, -⟩ := compileToken_comment program _ s2 a rfl hc
        exact ⟨e, by rw [hs2], by omega, e2⟩
      by_cases topen : tok = 91 ∨ tok = 123
      · rw [compileToken_open program tok _ topen] at hc
        exact ⟨a, by rw [← Option.some.inj hc], hna, h2⟩
      by_cases t93 : tok = 93
      · subst t93
        rw [compileToken_endConditional] at hc
        obtain ⟨x, rest, -, hs2⟩ := endConditional_some _ s2 hc
        exact ⟨a, by rw [hs2], hna, h2⟩
      by_cases t125 : tok = 125
      · subst t125
        rw [compileToken_endLoop] at hc
        obtain ⟨x, rest, -, hs2⟩ := endLoop_some _ s2 hc
        exact ⟨a, by rw [hs2], hna, h2⟩
      · simp only [not_or] at topen
        obtain ⟨e, he, e1, e2, -⟩ :=
          compileToken_other program tok _ s2 a rfl h2 t40 topen.1 topen.2 t93 t125 hc
        exact ⟨e, he, by omega, e2⟩
  obtain ⟨e, he, e1, e2⟩ := key
  obtain ⟨m, hs3, m1, m2⟩ := advancePastWhitespace_some program s2 s3 e he e2 hadv
  exact ⟨m, by rw [hs3], by omega, m2⟩

/-- The result of the compile loop does not depend on the fuel once there is one
unit of it for every byte from the cursor to the end of the source: the fuel of
`compile` never runs out. -/
theorem compileLoop_fuel (program : List Byte) :
    ∀ (k fuel : Nat) (s : State) (n : Nat), s.pc = n → program.length - n ≤ k →
      program.length - n ≤ fuel → compileLoop program k s = compileLoop program fuel s := by
  intro k
  induction k with
  | zero =>
    intro fuel s n hn hk _
    have hpc : ¬ s.pc < (program.length : Int) := by omega
    cases fuel <;> simp [compileLoop, hpc]
  | succ k ih =>
    intro fuel s n hn hk hf
    by_cases hpc : s.pc < (program.length : Int)
    · cases fuel with
      | zero => omega
      | succ f =>
        simp only [compileLoop, hpc, if_true]
        cases hs : compileStep program s with
        | none => rfl
        | some s3 =>
          obtain ⟨m, hm, m1, m2⟩ := compileStep_progress program s s3 n hn hs
          simp only [Option.some_bind]
          exact ih f s3 m hm (by omega) (by omega)
    · cases fuel <;> simp [compileLoop, hpc]

/-! ## The run phase: loops -/

/-- C11: on a data stack `b :: rest` the run-phase `}` token pops exactly `b`; when
`b` is zero the cursor stays at `p`, where `getToken` left it just past the `}`
token (fall through), and when `b` is nonzero the cursor becomes `jumps[p]`;
nothing else changes. -/
theorem loop_spec (program : List Byte) (s s1 : State) (b : Int) (rest : List Int)
    (ht : getToken program s = some (125, s1)) (hst : s.stack = b :: rest) :
    ∃ p : Nat, s1 = { s with pc := (p : Int) } ∧
      (b = 0 → runStep program s
        = some (Outcome.running { s with pc := (p : Int), stack := rest })) ∧
      (b ≠ 0 → runStep program s
        = some (Outcome.running { s with pc := jumpsGet s.jumps p, stack := rest })) := by
  obtain ⟨n, p, -, hs1, -, -⟩ := getToken_pcOnly program s s1 125 ht
  subst hs1
  refine ⟨p, rfl, ?_, ?_⟩
  · intro hb
    simp [runStep, ht, runToken, loop, pop, hst, hb]
  · intro hb
    simp [runStep, ht, runToken, loop, pop, hst, hb, jump]

/-- Witness of `loop_spec`: the `}` of `{ x }`, with key `5` mapped to `1`, entered
with `7` on the stack jumps back to `1`. -/
theorem loop_spec_witness :
    ∃ p : Nat,
      ({ State.init [] with pc := 5, stack := [7, 8], jumps := [(5, 1)] } : State)
        = { ({ State.init [] with pc := 3, stack := [7, 8], jumps := [(5, 1)] } : State) with
            pc := (p : Int) } ∧
      ((7 : Int) = 0 → runStep (src "\x7b x \x7d")
          { State.init [] with pc := 3, stack := [7, 8], jumps := [(5, 1)] }
        = some (Outcome.running
          { ({ State.init [] with pc := 3, stack := [7, 8], jumps := [(5, 1)] } : State) with
            pc := (p : Int), stack := [8] })) ∧
      ((7 : Int) ≠ 0 → runStep (src "\x7b x \x7d")
          { State.init [] with pc := 3, stack := [7, 8], jumps := [(5, 1)] }
        = some (Outcome.running
          { ({ State.init [] with pc := 3, stack := [7, 8], jumps := [(5, 1)] } : State) with
            pc := jumpsGet
              ({ State.init [] with pc := 3, stack := [7, 8], jumps := [(5, 1)] } : State).jumps
              p,
            stack := [8] })) :=
  loop_spec (src "\x7b x \x7d")
    { State.init [] with pc := 3, stack := [7, 8], jumps := [(5, 1)] }
    { State.init [] with pc := 5, stack := [7, 8], jumps := [(5, 1)] } 7 [8]
    (by decide) rfl

/-! ## The end of the compile phase -/

theorem compileLoop_final_pc (program : List Byte) (sf : State) :
    ∀ (fuel : Nat) (s : State) (n : Nat), s.pc = n → n ≤ program.length →
      compileLoop program fuel s = some sf → sf.pc = program.length := by
  intro fuel
  induction fuel with
  | zero =>
    intro s n hn hnl hl
    by_cases hpc : s.pc < (program.length : Int)
    · simp [compileLoop, hpc] at hl
    · simp only [compileLoop, hpc, if_false, Option.some.injEq] at hl
      subst hl
      omega
  | succ f ih =>
    intro s n hn hnl hl
    by_cases hpc : s.pc < (program.length : Int)
    · obtain ⟨f', s3, hf, hs, hl3⟩ := compileLoop_step program (f + 1) s sf hl hpc
      have hf' : f' = f := by omega
      subst hf'
      obtain ⟨m, hm, -, m2⟩ := compileStep_progress program s s3 n hn hs
      exact ih s3 m hm m2 hl3
    · simp only [compileLoop, hpc, if_false, Option.some.injEq] at hl
      subst hl
      omega

/-- C12: when the compile phase runs to completion, the cursor it leaves equals the
source length exactly. -/
theorem compile_final_pc (program input : List Byte) (sf : State)
    (hc : compile program input = some sf) : sf.pc = program.length :=
  compileLoop_final_pc program sf program.length (State.init input) 0 rfl (Nat.zero_le _) hc

/-- Witness of `compile_final_pc`: the five bytes of `( a )`. -/
theorem compile_final_pc_witness :
    compile (src "( a )") [] = some { State.init [] with pc := 5, jumps := [(1, 5)] } ∧
    ({ State.init [] with pc := 5, jumps := [(1, 5)] } : State).pc
      = ((src "( a )").length : Int) :=
  ⟨by decide, compile_final_pc (src "( a )") []
    { State.init [] with pc := 5, jumps := [(1, 5)] } (by decide)⟩

/-! ## Termination of the compile phase -/

theorem compileStep_nonneg (program : List Byte) (s s3 : State)
    (h : compileStep program s = some s3) : 0 ≤ s.pc := by
  by_contra hneg
  have hg : getToken program s = none := getToken_neg program s (by omega)
  simp [compileStep, hg] at h

theorem compileIter_count (program : List Byte) :
    ∀ (k : Nat) (s t : State) (n : Nat), s.pc = n → n ≤ program.length →
      compileIter program k s = some t →
      ∃ m : Nat, t.pc = m ∧ n + k ≤ m ∧ m ≤ program.length := by
  intro k
  induction k with
  | zero =>
    intro s t n hn hnl hi
    simp only [compileIter, Option.some.injEq] at hi
    subst hi
    exact ⟨n, hn, le_refl _, hnl⟩
  | succ k ih =>
    intro s t n hn hnl hi
    by_cases hpc : s.pc < (program.length : Int)
    · simp only [compileIter, hpc, if_true] at hi
      cases hs : compileStep program s with
      | none => simp [hs] at hi
      | some s3 =>
        simp only [hs, Option.some_bind] at hi
        obtain ⟨m, hm, m1, m2⟩ := compileStep_progress program s s3 n hn hs
        obtain ⟨m', hm', g1, g2⟩ := ih s3 t m hm m2 hi
        exact ⟨m', hm', by omega, g2⟩
    · simp [compileIter, hpc] at hi

/-- C20: one iteration of the compile loop that completes leaves the cursor
strictly greater than before and at most the source length; hence the loop
cannot be entered more than `len(source)` times, and the result of the compile
phase (completion or a panic) is reached within `len(source)` iterations: more
fuel does not change it. -/
theorem compile_terminates (program : List Byte) :
    (∀ s s3 : State, s.pc < program.length → compileStep program s = some s3 →
      s.pc < s3.pc ∧ s3.pc ≤ program.length) ∧
    (∀ (k : Nat) (input : List Byte) (t : State),
      compileIter program k (State.init input) = some t → k ≤ program.length) ∧
    (∀ (input : List Byte) (extra : Nat),
      compileLoop program (program.length + extra) (State.init input)
        = compile program input) := by
  refine ⟨?_, ?_, ?_⟩
  · intro s s3 _ h
    have h0 := compileStep_nonneg program s s3 h
    obtain ⟨m, hm, m1, m2⟩ := compileStep_progress program s s3 s.pc.toNat (by omega) h
    rw [hm]
    omega
  · intro k input t hi
    obtain ⟨m, -, m1, m2⟩ := compileIter_count program k (State.init input) t 0 rfl
      (Nat.zero_le _) hi
    omega
  · intro input extra
    exact compileLoop_fuel program _ _ (State.init input) 0 rfl (by omega) (by omega)

/-- Witness of `compile_terminates`: the first iteration on `( a )` moves the cursor
from `0` to `5`. -/
theorem compile_terminates_witness :
    (State.init []).pc < ({ State.init [] with pc := 5, jumps := [(1, 5)] } : State).pc ∧
    ({ State.init [] with pc := 5, jumps := [(1, 5)] } : State).pc
      ≤ ((src "( a )").length : Int) :=
  (compile_terminates (src "( a )")).1 (State.init [])
    { State.init [] with pc := 5, jumps := [(1, 5)] } (by decide) (by decide)

/-! ## End-to-end scenarios -/

/-- Once the run loop has reached `quit()`, more fuel gives the same result. -/
theorem runLoop_exited_add (program : List Byte) (t : State) :
    ∀ (f : Nat) (s : State), runLoop program f s = some (Outcome.exited t) →
      ∀ k, runLoop program (f + k) s = some (Outcome.exited t) := by
  intro f
  induction f with
  | zero =>
    intro s h
    simp [runLoop] at h
  | succ f ih =>
    intro s h k
    have hk : f + 1 + k = (f + k) + 1 := by omega
    rw [hk]
    simp only [runLoop] at h ⊢
    cases hs : runStep program s with
    | none => simp [hs] at h
    | some o =>
      cases o with
      | running s1 =>
        simp only [hs] at h ⊢
        exact ih s1 h k
      | exited s1 =>
        simp only [hs] at h ⊢
        exact h

/-- When the first iteration of the run loop panics, the run panics whatever the
fuel. -/
theorem runLoop_panic (program : List Byte) (s : State) (h : runStep program s = none)
    (k : Nat) : runLoop program (k + 1) s = none := by
  simp only [runLoop, h]

/-- C18: compiling `^ ( ignored ) '! Q` sets the start address just after the `^`
and records the comment in the jump map; the run phase starts there, its first
iteration takes the `(` token and jumps over the comment, and it reaches `Q`
(in three iterations, and with any larger bound on their number) with nothing
written to standard output and the data stack holding exactly `33`. -/
theorem comment_skip_scenario :
    (src "^ ( ignored ) '! Q")[0]? = some 94 ∧
    compile (src "^ ( ignored ) '! Q") []
      = some { State.init [] with startAddress := 1, pc := 18, jumps := [(3, 13)] } ∧
    run (src "^ ( ignored ) '! Q") 1
        { State.init [] with startAddress := 1, pc := 18, jumps := [(3, 13)] }
      = some (Outcome.running
          { State.init [] with startAddress := 1, pc := 13, jumps := [(3, 13)] }) ∧
    (src "^ ( ignored ) '! Q")[13 - 1]? = some 41 ∧
    ∀ k, run (src "^ ( ignored ) '! Q") (3 + k)
        { State.init [] with startAddress := 1, pc := 18, jumps := [(3, 13)] }
      = some (Outcome.exited
          { State.init [] with startAddress := 1, pc := 18, jumps := [(3, 13)],
                               stack := [33], stdout := [] }) := by
  refine ⟨by decide, by decide, by decide, by decide, ?_⟩
  intro k
  exact runLoop_exited_add _ _ 3 _ (by decide) k

/-- C17 (amended): the source `*1 ^ 0 [ 'A 1 W ] 'B 1 W Q` compiles to completion,
but `getToken` takes `*1` as one word, so the `*` handler finds no digits, reads
the `^` as the end of its empty argument and allocates nothing: the data space
stays empty and the start address stays `0`.  The run phase therefore starts at
the `*` token, which has no run-time action, and panics in its first iteration
with nothing written to standard output. -/
theorem conditional_scenario_panics :
    compile (src "*1 ^ 0 [ 'A 1 W ] 'B 1 W Q") []
      = some { State.init [] with pc := 26, jumps := [(8, 17)] } ∧
    ({ State.init [] with pc := 26, jumps := [(8, 17)] } : State).memory = [] ∧
    ({ State.init [] with pc := 26, jumps := [(8, 17)] } : State).startAddress = 0 ∧
    getToken (src "*1 ^ 0 [ 'A 1 W ] 'B 1 W Q") (State.init [])
      = some (42, { State.init [] with pc := 2 }) ∧
    ∀ k, run (src "*1 ^ 0 [ 'A 1 W ] 'B 1 W Q") (k + 1)
      { State.init [] with pc := 26, jumps := [(8, 17)] } = none := by
  refine ⟨by decide, rfl, rfl, by decide, ?_⟩
  intro k
  exact runLoop_panic _ _ (by decide) k

/-- C17 as stated fails: no run of `*1 ^ 0 [ 'A 1 W ] 'B 1 W Q`, however long,
reaches `Q`, and none writes the byte `B`. -/
theorem conditional_scenario_counterexample :
    ¬ ∃ (s0 sf : State) (fuel : Nat),
      compile (src "*1 ^ 0 [ 'A 1 W ] 'B 1 W Q") [] = some s0 ∧
      run (src "*1 ^ 0 [ 'A 1 W ] 'B 1 W Q") fuel s0 = some (Outcome.exited sf) ∧
      sf.stdout = [66] := by
  rintro ⟨s0, sf, fuel, hc, hr, -⟩
  have hc' : compile (src "*1 ^ 0 [ 'A 1 W ] 'B 1 W Q") []
      = some { State.init [] with pc := 26, jumps := [(8, 17)] } := by decide
  rw [hc'] at hc
  have hs := Option.some.inj hc
  subst hs
  cases fuel with
  | zero => simp [run, runLoop] at hr
  | succ k =>
    have hp : run (src "*1 ^ 0 [ 'A 1 W ] 'B 1 W Q") (k + 1)
        { State.init [] with pc := 26, jumps := [(8, 17)] } = none :=
      runLoop_panic _ _ (by decide) k
    rw [hp] at hr
    exact Option.noConfusion hr

/-- A source close to the one of C17 that does what that scenario expects: the
number after `*` stands in a word of its own, and the literal is stored in the
buffer at address `0` before it is written. -/
theorem conditional_scenario_variant :
    ∃ s0 sf, compile (src "* 1 ^ 0 [ 'A 0 s 0 1 W ] 'B 0 s 0 1 W Q") [] = some s0 ∧
      run (src "* 1 ^ 0 [ 'A 0 s 0 1 W ] 'B 0 s 0 1 W Q") 9 s0 = some (Outcome.exited sf) ∧
      sf.stdout = [66] := by
  refine ⟨{ State.init [] with startAddress := 5, pc := 39, memory := [0],
                                jumps := [(9, 24)] },
    { State.init [] with startAddress := 5, pc := 39, memory := [66], jumps := [(9, 24)],
                         stdout := [66] }, by decide, by decide, rfl⟩

/-! ## Numbers in the source -/

theorem getElem?_append_cons (pre rest : List Byte) (d : Byte) :
    (pre ++ d :: rest)[pre.length]? = some d := by
  rw [List.getElem?_append_right (le_refl _)]
  simp

/-- The loop of `readNumber` on a run of digits `ds` followed by a byte `c` that is
not a digit: it collects exactly `ds` and leaves the cursor one past `c`. -/
theorem readDigits_run (c : Byte) (post : List Byte) (hc : isDigit c = false) :
    ∀ (ds pre buf : List Byte) (fuel : Nat) (s : State), s.pc = pre.length →
      (∀ d ∈ ds, isDigit d = true) → ds.length + 1 ≤ fuel →
      readDigits (pre ++ ds ++ c :: post) fuel s buf
        = some (buf ++ ds, { s with pc := ((pre.length + ds.length + 1 : Nat) : Int) }) := by
  intro ds
  induction ds with
  | nil =>
    intro pre buf fuel s hpc _ hf
    obtain ⟨f, rfl⟩ : ∃ f, fuel = f + 1 := ⟨fuel - 1, by simp at hf; omega⟩
    simp only [List.append_nil]
    have he := eatByte_of_pc (pre ++ c :: post) s pre.length c hpc
      (getElem?_append_cons pre post c)
    simp only [readDigits, he, Option.bind_eq_bind, Option.some_bind, hc, Bool.false_eq_true,
      if_false, Option.pure_def, List.append_nil, List.length_nil, Nat.add_zero]
  | cons d ds ih =>
    intro pre buf fuel s hpc hds hf
    obtain ⟨f, rfl⟩ : ∃ f, fuel = f + 1 := ⟨fuel - 1, by simp at hf; omega⟩
    have hd : isDigit d = true := hds d (List.mem_cons_self _ _)
    have hprog : pre ++ d :: ds ++ c :: post = (pre ++ [d]) ++ ds ++ c :: post := by simp
    have he := eatByte_of_pc (pre ++ d :: ds ++ c :: post) s pre.length d hpc
      (by simpa using getElem?_append_cons pre (ds ++ c :: post) d)
    simp only [readDigits, he, Option.bind_eq_bind, Option.some_bind, hd, if_true]
    rw [hprog, ih (pre ++ [d]) (buf ++ [d]) f _ (by simp)
      (fun x hx => hds x (List.mem_cons_of_mem _ hx)) (by simp at hf; omega)]
    simp only [List.length_append, List.length_cons, List.length_nil, List.append_assoc,
      List.singleton_append, Option.some.injEq, Prod.mk.injEq, true_and]
    congr 1
    push_cast
    omega

/-- The loop of `readNumber` on a run of digits that reaches the end of the source
panics on `program[pc]`. -/
theorem readDigits_end :
    ∀ (ds pre buf : List Byte) (fuel : Nat) (s : State), s.pc = pre.length →
      (∀ d ∈ ds, isDigit d = true) → readDigits (pre ++ ds) fuel s buf = none := by
  intro ds
  induction ds with
  | nil =>
    intro pre buf fuel s hpc _
    cases fuel with
    | zero => rfl
    | succ f =>
      simp only [List.append_nil]
      have hcb : currentByte pre s = none := by
        rw [currentByte_of_pc _ s pre.length hpc]
        simp
      simp [readDigits, eatByte, hcb]
  | cons d ds ih =>
    intro pre buf fuel s hpc hds
    cases fuel with
    | zero => rfl
    | succ f =>
      have hd : isDigit d = true := hds d (List.mem_cons_self _ _)
      have hprog : pre ++ d :: ds = (pre ++ [d]) ++ ds := by simp
      have he := eatByte_of_pc (pre ++ d :: ds) s pre.length d hpc
        (getElem?_append_cons pre ds d)
      simp only [readDigits, he, Option.bind_eq_bind, Option.some_bind, hd, if_true]
      rw [hprog]
      exact ih (pre ++ [d]) (buf ++ [d]) f _ (by simp)
        (fun x hx => hds x (List.mem_cons_of_mem _ hx))

/-- What `readNumber` does at a run of digits `ds` followed by a byte `c` that is not
a digit: it returns the `uint32` of what `Atoi` makes of `ds` and leaves the
cursor one past `c`. -/
theorem readNumber_run (pre ds post : List Byte) (c : Byte) (s : State)
    (hpc : s.pc = pre.length) (hds : ∀ d ∈ ds, isDigit d = true) (hc : isDigit c = false) :
    readNumber (pre ++ ds ++ c :: post) s
      = some ((atoi ds).toNat % 4294967296,
          { s with pc := ((pre.length + ds.length + 1 : Nat) : Int) }) := by
  have hf : ds.length + 1
      ≤ (((pre ++ ds ++ c :: post).length : Int) - s.pc).toNat + 1 := by
    rw [hpc]
    simp only [List.length_append, List.length_cons]
    omega
  simp only [readNumber, readDigits_run c post hc ds pre [] _ s hpc hds hf,
    Option.bind_eq_bind, Option.some_bind, List.nil_append, Option.pure_def]

theorem readNumber_end (pre ds : List Byte) (s : State) (hpc : s.pc = pre.length)
    (hds : ∀ d ∈ ds, isDigit d = true) : readNumber (pre ++ ds) s = none := by
  simp only [readNumber, readDigits_end ds pre [] _ s hpc hds, Option.bind_eq_bind,
    Option.none_bind]

/-- C19 (amended): at a maximal run of decimal digits `ds` that is followed in the
source by a byte `c`, `readNumber` (the handler of the compile-phase digit token
and of the run-phase literal, also called by `b`, `#` and `*`) consumes the run
and the byte `c` as well: afterwards the cursor is one past the first non-digit
byte, which is no longer available to the next token.  When the run reaches the
end of the source, `readNumber` panics. -/
theorem readNumber_consumes (pre ds post : List Byte) (c : Byte) (s : State)
    (hpc : s.pc = pre.length) (hds : ∀ d ∈ ds, isDigit d = true) (hc : isDigit c = false) :
    (∃ v, readNumber (pre ++ ds ++ c :: post) s
        = some (v, { s with pc := ((pre.length + ds.length + 1 : Nat) : Int) })) ∧
      (pre ++ ds ++ c :: post)[pre.length + ds.length]? = some c ∧
      readNumber (pre ++ ds) s = none := by
  refine ⟨⟨_, readNumber_run pre ds post c s hpc hds hc⟩, ?_, readNumber_end pre ds s hpc hds⟩
  have h := getElem?_append_cons (pre ++ ds) post c
  simpa using h

/-- Witness of `readNumber_consumes`: in `12]x` the cursor ends at offset `3`, past
the `]`. -/
theorem readNumber_consumes_witness :
    (∃ v, readNumber (([] : List Byte) ++ [49, 50] ++ 93 :: [120]) (State.init [])
        = some (v, { State.init [] with
            pc := (((([] : List Byte).length + ([49, 50] : List Byte).length + 1 : Nat)) : Int) })) ∧
      (([] : List Byte) ++ [49, 50] ++ 93 :: [120])[([] : List Byte).length
        + ([49, 50] : List Byte).length]? = some 93 ∧
      readNumber (([] : List Byte) ++ [49, 50]) (State.init []) = none :=
  readNumber_consumes [] [49, 50] [120] 93 (State.init []) rfl
    (by intro d hd; simp at hd; rcases hd with rfl | rfl <;> decide) (by decide)

/-- C19 as stated fails: in `12]x` the first non-digit byte is the `]` at offset
`2`, but `readNumber` leaves the cursor at `3`; and the source `12]` compiles to
completion because its `]` is never dispatched (it would panic on the empty
stack). -/
theorem readNumber_counterexample :
    readNumber (src "12]x") (State.init []) = some (12, { State.init [] with pc := 3 }) ∧
    (src "12]x")[2]? = some 93 ∧ isDigit 93 = false ∧
    compile (src "12]") [] = some { State.init [] with pc := 3 } ∧
    compileTrace (src "12]") 3 (State.init []) = [(49, 0)] ∧
    compile (src "]") [] = none := by
  decide

set_option maxRecDepth 100000 in
theorem isDigit_ne_run (tok : Byte) (h : isDigit tok = true) :
    tok ≠ 87 ∧ tok ≠ 71 ∧ tok ≠ 81 ∧ tok ≠ 45 ∧ tok ≠ 60 ∧ tok ≠ 64 ∧ tok ≠ 33 ∧
      tok ≠ 115 ∧ tok ≠ 59 ∧ isWhitespace tok = false := by
  revert tok; decide

/-- At a digit `getToken` returns the digit and leaves the state as it is. -/
theorem getToken_at_digit (program : List Byte) (s : State) (n : Nat) (d : Byte)
    (hn : s.pc = n) (hd : program[n]? = some d) (hdig : isDigit d = true) :
    getToken program s = some (d, s) := by
  obtain ⟨i, h1, h2, -, h4⟩ := getToken_cases program s n hn
  have hin : i = n := by
    by_contra hne
    obtain ⟨w, hw, hws⟩ := h2 n (le_refl _) (by omega)
    rw [hd] at hw
    cases hw
    rw [(isDigit_ne_run d hdig).2.2.2.2.2.2.2.2.2] at hws
    exact Bool.noConfusion hws
  subst hin
  obtain ⟨-, m, hm, g1, -⟩ := h4 d hd
  have hmi : m = i := g1 (Or.inl hdig)
  subst hmi
  rw [hm]
  have hs : ({ s with pc := (m : Int) } : State) = s := by
    cases s
    simp only [State.mk.injEq, and_true, true_and]
    exact hn.symm
  rw [hs]

/-- The run-phase `switch` sends a digit to `pushLiteral`. -/
theorem runToken_digit (program : List Byte) (d : Byte) (s : State)
    (hdig : isDigit d = true) :
    runToken program d s = (pushLiteral program s).map Outcome.running := by
  obtain ⟨d1, -, -, -, -, -, -, d8, d9, d10, d11, d12, d13, d14⟩ := isDigit_ne d hdig
  obtain ⟨e1, e2, e3, e4, e5, e6, e7, e8, e9, -⟩ := isDigit_ne_run d hdig
  simp only [runToken, d1, d8, d9, d10, d11, d12, d13, d14, e1, e2, e3, e4, e5, e6, e7, e8,
    e9, hdig, if_false, if_true, or_self]

theorem atoi_of_lt (ds : List Byte) (h : decimalValue ds < 9223372036854775808) :
    atoi ds = decimalValue ds := by
  simp [atoi, h]

theorem wrap32_mod (n : Nat) : wrap32 ((n % 4294967296 : Nat) : Int) = wrap32 n := by
  unfold wrap32
  push_cast
  omega

/-- C16: at a maximal run `ds` of decimal digits at the cursor, of decimal value
`n < 2^63` and followed by at least one more source byte `c`, the run-phase digit
token pushes the signed 32-bit integer congruent to `n` modulo `2^32`, which is
`n` itself when `n < 2^31`, leaves the elements beneath unchanged, and moves the
cursor past the run and the byte `c`. -/
theorem pushLiteral_spec (pre ds post : List Byte) (c : Byte) (s : State)
    (hpc : s.pc = pre.length) (hne : ds ≠ []) (hds : ∀ d ∈ ds, isDigit d = true)
    (hc : isDigit c = false) (hn : decimalValue ds < 9223372036854775808) :
    ∃ r : Int, runStep (pre ++ ds ++ c :: post) s
        = some (Outcome.running { s with
            pc := ((pre.length + ds.length + 1 : Nat) : Int), stack := r :: s.stack }) ∧
      -2147483648 ≤ r ∧ r < 2147483648 ∧ (r - (decimalValue ds : Int)) % 4294967296 = 0 ∧
      (decimalValue ds < 2147483648 → r = decimalValue ds) := by
  refine ⟨wrap32 (decimalValue ds), ?_, (wrap32_range _).1, (wrap32_range _).2,
    wrap32_congruent _, fun h => wrap32_of_range _ (by omega) (by omega)⟩
  cases ds with
  | nil => exact absurd rfl hne
  | cons d ds' =>
    have hd : isDigit d = true := hds d (List.mem_cons_self _ _)
    have hget : (pre ++ d :: ds' ++ c :: post)[pre.length]? = some d := by
      simpa using getElem?_append_cons pre (ds' ++ c :: post) d
    have hg := getToken_at_digit (pre ++ d :: ds' ++ c :: post) s pre.length d hpc hget hd
    have hr := readNumber_run pre (d :: ds') post c s hpc hds hc
    simp only [runStep, hg, Option.bind_eq_bind, Option.some_bind, runToken_digit _ d s hd,
      pushLiteral, hr, Option.pure_def, Option.map_some', atoi_of_lt _ hn, Int.toNat_ofNat,
      wrap32_mod]

/-- Witness of `pushLiteral_spec`: the literal `42` in `x 42 y`. -/
theorem pushLiteral_spec_witness :
    ∃ r : Int, runStep (([120, 32] : List Byte) ++ [52, 50] ++ 32 :: [121])
        { State.init [] with pc := 2, stack := [5] }
        = some (Outcome.running
          { ({ State.init [] with pc := 2, stack := [5] } : State) with
            pc := (((([120, 32] : List Byte).length + ([52, 50] : List Byte).length + 1 : Nat))
              : Int),
            stack := r :: ({ State.init [] with pc := 2, stack := [5] } : State).stack }) ∧
      -2147483648 ≤ r ∧ r < 2147483648 ∧
      (r - (decimalValue [52, 50] : Int)) % 4294967296 = 0 ∧
      (decimalValue [52, 50] < 2147483648 → r = decimalValue [52, 50]) :=
  pushLiteral_spec [120, 32] [52, 50] [121] 32 { State.init [] with pc := 2, stack := [5] }
    rfl (by decide) (by intro d hd; simp at hd; rcases hd with rfl | rfl <;> decide)
    (by decide) (by decide)

/-! ## The data space after the compile phase -/

/-- Apart from `b`, `#` and `*`, no token changes the data space at compile time. -/
theorem compileToken_memory (program : List Byte) (tok : Byte) (s1 s2 : State) (a : Nat)
    (ha : s1.pc = a) (h98 : tok ≠ 98) (h35 : tok ≠ 35) (h42 : tok ≠ 42)
    (h : compileToken program tok s1 = some s2) : s2.memory = s1.memory := by
  unfold compileToken at h
  simp only [h98, h35, h42, if_false] at h
  by_cases g1 : tok = 40
  · simp only [g1, if_true] at h
    obtain ⟨e, hs, -⟩ := eatComment_some program s1 s2 a ha h
    rw [hs]
  simp only [g1, if_false] at h
  by_cases g2 : tok = 118
  · simp only [g2, if_true] at h
    obtain ⟨name, m, hs, -⟩ := dataspaceLabel_some program s1 s2 a ha h
    rw [hs]; rfl
  simp only [g2, if_false] at h
  by_cases g3 : tok = 58
  · simp only [g3, if_true] at h
    obtain ⟨name, m, hs, -⟩ := defineFunction_some program s1 s2 a ha h
    rw [hs]; rfl
  simp only [g3, if_false] at h
  by_cases g4 : tok = 94
  · simp only [g4, if_true] at h
    rw [← Option.some.inj h]; rfl
  simp only [g4, if_false] at h
  by_cases g5 : tok = 91 ∨ tok = 123
  · simp only [g5, if_true] at h
    rw [← Option.some.inj h]; rfl
  simp only [g5, if_false] at h
  by_cases g6 : tok = 93
  · simp only [g6, if_true] at h
    obtain ⟨x, rest, -, hs⟩ := endConditional_some s1 s2 h
    rw [hs]
  simp only [g6, if_false] at h
  by_cases g7 : tok = 125
  · simp only [g7, if_true] at h
    obtain ⟨x, rest, -, hs⟩ := endLoop_some s1 s2 h
    rw [hs]
  simp only [g7, if_false] at h
  by_cases g8 : tok = 32 ∨ tok = 10
  · simp only [g8, if_true] at h
    cases he : eatByte program s1 with
    | none => simp [he] at h
    | some r =>
      obtain ⟨c, t⟩ := r
      simp only [he, Option.map_some', Option.some.injEq] at h
      obtain ⟨-, ht, -⟩ := eatByte_some program s1 t c a ha he
      rw [← h, ht]
  simp only [g8, if_false] at h
  by_cases g9 : tok = 39
  · simp only [g9, if_true] at h
    obtain ⟨hs, -⟩ := skipLiteralByte_some program s1 s2 a ha h
    rw [hs]
  simp only [g9, if_false] at h
  by_cases g10 : isDigit tok = true
  · simp only [g10, if_true] at h
    cases he : readNumber program s1 with
    | none => simp [he] at h
    | some r =>
      obtain ⟨v, t⟩ := r
      simp only [he, Option.map_some', Option.some.injEq] at h
      obtain ⟨m, ht, -⟩ := readNumber_some program s1 t v a ha he
      rw [← h, ht]
  · simp only [g10, if_false] at h
    rw [← Option.some.inj h]

/-- The `*` handler appends as many bytes as `emitted` says. -/
theorem allocateSpace_emitted (program : List Byte) (s1 s2 : State)
    (h : allocateSpace program s1 = some s2) :
    s2.memory.length = s1.memory.length + emitted program 42 s1 := by
  have he : emitted program 42 s1 = match numberArgument program s1 with
      | some ds => (atoi ds).toNat % 4294967296
      | none => 0 := by
    unfold emitted
    rfl
  rw [he]
  simp only [allocateSpace, Option.bind_eq_bind] at h
  cases h1 : advancePastWhitespace program s1 with
  | none => simp [h1] at h
  | some t =>
    simp only [h1, Option.some_bind, readNumber, Option.bind_eq_bind] at h
    cases h2 : readDigits program ((program.length - t.pc).toNat + 1) t [] with
    | none => simp [h2] at h
    | some r =>
      obtain ⟨buf, u⟩ := r
      simp only [h2, Option.some_bind, Option.pure_def, Option.some.injEq] at h
      have hu : u.memory = s1.memory := by
        obtain ⟨k, hk, -⟩ := advancePastWhitespace_spec program s1 s1.pc.toNat (by
          have h0 : 0 ≤ s1.pc := by
            by_contra hneg
            have hlt : s1.pc < (program.length : Int) := by omega
            have hf : (program.length - s1.pc).toNat
                = ((program.length - s1.pc).toNat - 1) + 1 := by omega
            have hcb : currentByte program s1 = none := by
              simp [currentByte, hneg]
            unfold advancePastWhitespace at h1
            rw [hf] at h1
            simp [advancePastWhitespaceLoop, hlt, hcb] at h1
          omega)
        rw [hk] at h1
        have ht := (Option.some.inj h1).symm
        obtain ⟨m, hm, -⟩ := readDigits_some program _ t u [] buf k (by rw [ht]) h2
        rw [hm, ht]
      simp only [numberArgument, h1, h2, Option.bind_eq_bind, Option.some_bind,
        Option.pure_def]
      rw [← h]
      simp only [List.length_append, List.length_replicate, hu]

/-- One iteration of the compile loop adds to the data space what `emitted` says
for its token. -/
theorem compileStep_memory (program : List Byte) (s s3 : State) (n : Nat) (hn : s.pc = n)
    (h : compileStep program s = some s3) :
    ∃ (tok : Byte) (s1 : State), getToken program s = some (tok, s1) ∧
      (compileToken program tok s1).bind (advancePastWhitespace program) = some s3 ∧
      s3.memory.length = s.memory.length + emitted program tok s1 := by
  obtain ⟨tok, a, s2, hg, h1, h2, -, hc, hadv⟩ := compileStep_some program s s3 n hn h
  refine ⟨tok, _, hg, by simp only [hc, Option.some_bind, hadv], ?_⟩
  have h23 : s3.memory = s2.memory := by
    have h0 : 0 ≤ s2.pc := by
      by_contra hneg
      have hlt : s2.pc < (program.length : Int) := by omega
      have hf : (program.length - s2.pc).toNat
          = ((program.length - s2.pc).toNat - 1) + 1 := by omega
      have hcb : currentByte program s2 = none := by
        simp [currentByte, hneg]
      unfold advancePastWhitespace at hadv
      rw [hf] at hadv
      simp [advancePastWhitespaceLoop, hlt, hcb] at hadv
    obtain ⟨k, hk, -⟩ := advancePastWhitespace_spec program s2 s2.pc.toNat (by omega)
    rw [hk] at hadv
    rw [← Option.some.inj hadv]
  rw [h23]
  by_cases t98 : tok = 98
  · subst t98
    have hc' : literalByteCompile program { s with pc := (a : Int) } = some s2 := by
      simpa [compileToken] using hc
    obtain ⟨v, m, hs2, -⟩ := literalByteCompile_some program _ s2 a rfl h2 hc'
    rw [hs2]
    simp [emitted]
  by_cases t35 : tok = 35
  · subst t35
    have hc' : literalWord program { s with pc := (a : Int) } = some s2 := by
      simpa [compileToken] using hc
    obtain ⟨v, m, hs2, -⟩ := literalWord_some program _ s2 a rfl h2 hc'
    rw [hs2]
    simp [emitted]
  by_cases t42 : tok = 42
  · subst t42
    have hc' : allocateSpace program { s with pc := (a : Int) } = some s2 := by
      simpa [compileToken] using hc
    exact allocateSpace_emitted program _ s2 hc'
  · rw [compileToken_memory program tok _ s2 a rfl t98 t35 t42 hc]
    simp [emitted, t98, t35, t42]

theorem compileLoop_memory (program : List Byte) (sf : State) :
    ∀ (fuel : Nat) (s : State) (n : Nat), s.pc = n →
      compileLoop program fuel s = some sf →
      sf.memory.length = s.memory.length + (compileEmitted program fuel s).sum := by
  intro fuel
  induction fuel with
  | zero =>
    intro s n _ hl
    by_cases hpc : s.pc < (program.length : Int)
    · simp [compileLoop, hpc] at hl
    · simp only [compileLoop, hpc, if_false, Option.some.injEq] at hl
      subst hl
      simp [compileEmitted]
  | succ f ih =>
    intro s n hn hl
    by_cases hpc : s.pc < (program.length : Int)
    · obtain ⟨f', s3, hf, hs, hl3⟩ := compileLoop_step program (f + 1) s sf hl hpc
      have hf' : f' = f := by omega
      subst hf'
      obtain ⟨tok, s1, hg, hb, hm⟩ := compileStep_memory program s s3 n hn hs
      obtain ⟨m, hpc3, -, -⟩ := compileStep_progress program s s3 n hn hs
      have := ih s3 m hpc3 hl3
      simp only [compileEmitted, hpc, if_true, hg, hb, List.sum_cons]
      omega
    · simp only [compileLoop, hpc, if_false, Option.some.injEq] at hl
      subst hl
      simp [compileEmitted, hpc]

/-- C13 (amended): when a source compiles to completion from the empty data space,
the data-space length after compile is the sum, over the tokens the compile loop
dispatched, of `1` for each `b` token, `4` for each `#` token and, for each `*`
token, the `uint32` of what `Atoi` makes of its argument; that is the decimal value
`N` of the argument itself whenever `N < 2^32`. -/
theorem compile_memory_length (program input : List Byte) (sf : State)
    (hc : compile program input = some sf) :
    sf.memory.length = (compileEmitted program program.length (State.init input)).sum ∧
    (∀ tok s1, tok = 98 → emitted program tok s1 = 1) ∧
    (∀ tok s1, tok = 35 → emitted program tok s1 = 4) ∧
    (∀ tok s1 ds, tok = 42 → numberArgument program s1 = some ds →
      emitted program tok s1 = (atoi ds).toNat % 4294967296 ∧
      (decimalValue ds < 4294967296 → emitted program tok s1 = decimalValue ds)) ∧
    (∀ tok s1, tok ≠ 98 → tok ≠ 35 → tok ≠ 42 → emitted program tok s1 = 0) := by
  refine ⟨?_, ?_, ?_, ?_, ?_⟩
  · have := compileLoop_memory program sf program.length (State.init input) 0 rfl hc
    simpa [State.init] using this
  · intro tok s1 h; subst h; simp [emitted]
  · intro tok s1 h; subst h; simp [emitted]
  · intro tok s1 ds h hds
    subst h
    have he : emitted program 42 s1 = (atoi ds).toNat % 4294967296 := by
      simp [emitted, hds]
    refine ⟨he, fun hlt => ?_⟩
    rw [he, atoi_of_lt ds (by omega)]
    simp only [Int.toNat_ofNat]
    omega
  · intro tok s1 h1 h2 h3
    simp [emitted, h1, h2, h3]

/-- Witness of `compile_memory_length`: `b 7 # 1 * 3 x` lays out `1 + 4 + 3` bytes. -/
theorem compile_memory_length_witness :
    ({ State.init [] with pc := 13, memory := [7, 1, 0, 0, 0, 0, 0, 0] } : State).memory.length
      = (compileEmitted (src "b 7 # 1 * 3 x") (src "b 7 # 1 * 3 x").length
          (State.init [])).sum ∧
    compileEmitted (src "b 7 # 1 * 3 x") (src "b 7 # 1 * 3 x").length (State.init [])
      = [1, 4, 3, 0] :=
  ⟨(compile_memory_length (src "b 7 # 1 * 3 x") []
    { State.init [] with pc := 13, memory := [7, 1, 0, 0, 0, 0, 0, 0] } (by decide)).1,
   by decide⟩

/-- C13 as stated fails: in `* 4294967297 ` the `*` token has the argument
`N = 2^32 + 1`, but the `uint32` conversion in `readNumber` leaves `1`, and the
data space after compile holds one byte, not `N`. -/
theorem compile_memory_length_counterexample :
    compile (src "* 4294967297 ") [] = some { State.init [] with pc := 13, memory := [0] } ∧
    compileTrace (src "* 4294967297 ") 13 (State.init []) = [(42, 1)] ∧
    numberArgument (src "* 4294967297 ") { State.init [] with pc := 1 }
      = some [52, 50, 57, 52, 57, 54, 55, 50, 57, 55] ∧
    decimalValue [52, 50, 57, 52, 57, 54, 55, 50, 57, 55] = 4294967297 ∧
    ({ State.init [] with pc := 13, memory := [0] } : State).memory.length ≠ 4294967297 := by
  decide

/-! ## User definitions -/

/-- A token without a case of its own in the `switch` of `run()` is looked up in
`runtimeDispatch`, and the closure found is called. -/
theorem runToken_default (program : List Byte) (token : Byte) (t : State)
    (h : runBuiltin token = false) :
    runToken program token t
      = (dispatchGet t.runtimeDispatch token).map (fun a => Outcome.running (a.call t)) := by
  simp only [runBuiltin, Bool.or_eq_false_iff, decide_eq_false_iff_not] at h
  obtain ⟨⟨⟨⟨⟨⟨⟨⟨⟨⟨⟨⟨⟨⟨⟨⟨⟨h1, h2⟩, h3⟩, h4⟩, h5⟩, h6⟩, h7⟩, h8⟩, h9⟩, h10⟩, h11⟩, h12⟩, h13⟩,
    h14⟩, h15⟩, h16⟩, h17⟩, h18⟩ := h
  simp only [runToken, h1, h2, h3, h4, h5, h6, h7, h8, h9, h10, h11, h12, h13, h14, h15, h16,
    h17, h18, if_false, or_self, Bool.false_eq_true]

theorem dispatchGet_cons_self (d : List (Byte × Action)) (name : Byte) (a : Action) :
    dispatchGet ((name, a) :: d) name = some a := by
  simp [dispatchGet]

theorem runBuiltin_false (name : Byte) (h : runBuiltin name = false) :
    ¬ (isDigit name = true ∨ name = 39) := by
  simp only [runBuiltin, Bool.or_eq_false_iff, decide_eq_false_iff_not] at h
  rintro (hd | hq)
  · rw [h.2] at hd
    exact Bool.noConfusion hd
  · exact h.1.2 hq

/-- C14: for a `:` definition whose name can be called at run time (a token with no
built-in case in `run()`), the compile phase registers under the name token an
action whose target `a` is the cursor offset immediately after the name word,
captured at definition time: the name is the byte at offset `i`, the bytes from
`i` up to `a` are not whitespace, and `a` is the end of the source or holds a
whitespace byte.  Invoking that action at run time with cursor `p` pushes
`int32(p)` (which is `p` when `p` fits an `int32`) on top of the return stack,
leaving the entries beneath unchanged, and sets the cursor to `a`; this is what
the run phase does at the name token once the action is in the dispatch table. -/
theorem defineFunction_spec (program : List Byte) (s1 u : State) (name : Byte)
    (hg : getToken program s1 = some (name, u)) (hb : runBuiltin name = false) :
    ∃ (i a : Nat), u = { s1 with pc := (a : Int) } ∧
      defineFunction program s1 = some (define name (Action.callFunction a) u) ∧
      dispatchGet (define name (Action.callFunction a) u).runtimeDispatch name
        = some (Action.callFunction a) ∧
      s1.pc ≤ i ∧ program[i]? = some name ∧ i < a ∧ a ≤ program.length ∧
      (∀ j, i < j → j < a → ∃ w, program[j]? = some w ∧ isWhitespace w = false) ∧
      (∀ w, program[a]? = some w → isWhitespace w = true) ∧
      (∀ t : State, (Action.callFunction a).call t
          = { t with rstack := wrap32 t.pc :: t.rstack, pc := (a : Int) } ∧
        (0 ≤ t.pc → t.pc < 2147483648 → wrap32 t.pc = t.pc)) ∧
      (∀ t : State, dispatchGet t.runtimeDispatch name = some (Action.callFunction a) →
        runToken program name t = some (Outcome.running
          { t with rstack := wrap32 t.pc :: t.rstack, pc := (a : Int) })) := by
  obtain ⟨n, p, hn, -, -, -⟩ := getToken_pcOnly program s1 u name hg
  obtain ⟨i, a, hu, h1, h2, h3, h4, h5, h6, h7, h8, h9⟩ :=
    getToken_some program s1 u name n hn hg
  have hnd := runBuiltin_false name hb
  refine ⟨i, a, hu, ?_, dispatchGet_cons_self _ _ _, by omega, h5, (h9 hnd).1, h3,
    (h9 hnd).2.1, (h9 hnd).2.2, ?_, ?_⟩
  · simp only [defineFunction, hg, Option.bind_eq_bind, Option.some_bind, Option.pure_def,
      hu]
  · intro t
    exact ⟨rfl, fun g1 g2 => wrap32_of_range _ (by omega) g2⟩
  · intro t hdis
    rw [runToken_default program name t hb, hdis]
    rfl

/-- Witness of `defineFunction_spec`: the definition `: f ;`, whose name word ends at
offset `3`. -/
theorem defineFunction_spec_witness :
    ∃ (i a : Nat), ({ State.init [] with pc := 3 } : State) = { ({ State.init [] with pc := 1 } : State) with pc := (a : Int) } ∧
      defineFunction (src ": f ;") { State.init [] with pc := 1 }
        = some (define 102 (Action.callFunction a) { State.init [] with pc := 3 }) ∧
      dispatchGet (define 102 (Action.callFunction a) { State.init [] with pc := 3 }).runtimeDispatch 102
        = some (Action.callFunction a) ∧
      ({ State.init [] with pc := 1 } : State).pc ≤ i ∧ (src ": f ;")[i]? = some 102 ∧ i < a ∧
      a ≤ (src ": f ;").length ∧
      (∀ j, i < j → j < a → ∃ w, (src ": f ;")[j]? = some w ∧ isWhitespace w = false) ∧
      (∀ w, (src ": f ;")[a]? = some w → isWhitespace w = true) ∧
      (∀ t : State, (Action.callFunction a).call t
          = { t with rstack := wrap32 t.pc :: t.rstack, pc := (a : Int) } ∧
        (0 ≤ t.pc → t.pc < 2147483648 → wrap32 t.pc = t.pc)) ∧
      (∀ t : State, dispatchGet t.runtimeDispatch 102 = some (Action.callFunction a) →
        runToken (src ": f ;") 102 t = some (Outcome.running
          { t with rstack := wrap32 t.pc :: t.rstack, pc := (a : Int) })) :=
  defineFunction_spec (src ": f ;") { State.init [] with pc := 1 }
    { State.init [] with pc := 3 } 102 (by decide) (by decide)

/-- C15: for a `v` definition, the action registered under the name token pushes
`int32(len(memory))`, the data-space length at the time the `v` token is
compiled (the length itself as long as it fits an `int32`), in whatever state it
is called later, so however the data space has grown, and leaves the rest of the
data stack and of the state unchanged; the definition itself does not touch the
data space, and the run phase calls the action for the name token whenever that
token has no built-in case. -/
theorem dataspaceLabel_spec (program : List Byte) (s1 s2 : State)
    (hd : dataspaceLabel program s1 = some s2) :
    ∃ (name : Byte) (a : Nat) (v : Int),
      v = wrap32 s1.memory.length ∧
      ((s1.memory.length : Int) < 2147483648 → v = s1.memory.length) ∧
      getToken program s1 = some (name, { s1 with pc := (a : Int) }) ∧
      s2 = define name (Action.pushDataspaceLabel v) { s1 with pc := (a : Int) } ∧
      dispatchGet s2.runtimeDispatch name = some (Action.pushDataspaceLabel v) ∧
      s2.memory = s1.memory ∧
      (∀ t : State, (Action.pushDataspaceLabel v).call t = { t with stack := v :: t.stack }) ∧
      (∀ t : State, runBuiltin name = false →
        dispatchGet t.runtimeDispatch name = some (Action.pushDataspaceLabel v) →
        runToken program name t = some (Outcome.running { t with stack := v :: t.stack })) := by
  simp only [dataspaceLabel, Option.bind_eq_bind] at hd
  cases hg : getToken program s1 with
  | none => simp [hg] at hd
  | some r =>
    obtain ⟨name, u⟩ := r
    simp only [hg, Option.some_bind, Option.pure_def, Option.some.injEq] at hd
    obtain ⟨n, a, -, hu, -, -⟩ := getToken_pcOnly program s1 u name hg
    subst hu
    refine ⟨name, a, wrap32 s1.memory.length, rfl,
      fun h => wrap32_of_range _ (by omega) h, rfl, hd.symm, ?_, ?_, fun t => rfl, ?_⟩
    · rw [← hd]
      exact dispatchGet_cons_self _ _ _
    · rw [← hd]; rfl
    · intro t hb hdis
      rw [runToken_default program name t hb, hdis]
      rfl

/-- Witness of `dataspaceLabel_spec`: `v a` compiled when the data space holds three
bytes registers an action that pushes `3`. -/
theorem dataspaceLabel_spec_witness :
    ∃ (name : Byte) (a : Nat) (v : Int),
      v = wrap32 ({ State.init [] with pc := 5, memory := [0, 0, 0] } : State).memory.length ∧
      ((({ State.init [] with pc := 5, memory := [0, 0, 0] } : State).memory.length : Int)
          < 2147483648 →
        v = ({ State.init [] with pc := 5, memory := [0, 0, 0] } : State).memory.length) ∧
      getToken (src "* 3 v a b 1 ^ a Q") { State.init [] with pc := 5, memory := [0, 0, 0] }
        = some (name, { ({ State.init [] with pc := 5, memory := [0, 0, 0] } : State) with
            pc := (a : Int) }) ∧
      ({ State.init [] with pc := 7, memory := [0, 0, 0], runtimeDispatch := [(97, Action.pushDataspaceLabel 3)] } : State)
        = define name (Action.pushDataspaceLabel v)
            { ({ State.init [] with pc := 5, memory := [0, 0, 0] } : State) with
              pc := (a : Int) } ∧
      dispatchGet ({ State.init [] with pc := 7, memory := [0, 0, 0], runtimeDispatch := [(97, Action.pushDataspaceLabel 3)] } : State).runtimeDispatch name
        = some (Action.pushDataspaceLabel v) ∧
      ({ State.init [] with pc := 7, memory := [0, 0, 0], runtimeDispatch := [(97, Action.pushDataspaceLabel 3)] } : State).memory
        = ({ State.init [] with pc := 5, memory := [0, 0, 0] } : State).memory ∧
      (∀ t : State, (Action.pushDataspaceLabel v).call t = { t with stack := v :: t.stack }) ∧
      (∀ t : State, runBuiltin name = false →
        dispatchGet t.runtimeDispatch name = some (Action.pushDataspaceLabel v) →
        runToken (src "* 3 v a b 1 ^ a Q") name t
          = some (Outcome.running { t with stack := v :: t.stack })) :=
  dataspaceLabel_spec (src "* 3 v a b 1 ^ a Q")
    { State.init [] with pc := 5, memory := [0, 0, 0] }
    { State.init [] with pc := 7, memory := [0, 0, 0], runtimeDispatch := [(97, Action.pushDataspaceLabel 3)] }
    (by decide)

end Stoneknife
